import Mathlib

/-! Electric and magnetic field samples (`src/main.cpp`).

A shallow embedding of the single translation unit of the repository:

* `Double` models the C++ `double` (IEEE 754 binary64, round to nearest, ties
  to even) with exact integer arithmetic, so that every expression of the
  program can be evaluated; NaNs carry their sign and fraction;
* `Field`, `ElectricField` and `MagneticField` model the three classes, member
  functions becoming functions on the object state;
* `ostream` models an output stream as the text written so far together with
  the rendering of a `double` the stream's format state selects;
* `main` is the straight-line entry routine, returning its locals and the text
  written to `std::cout`.
-/

namespace Inheritance

/-! ## Binary64 arithmetic -/

/-- An IEEE 754 binary64 datum.  `fin neg m e` stands for `(-1)^neg * m * 2^e`;
the values the operations produce have `e = -1074` and `m < 2^52` (zero and
subnormals) or `2^52 ≤ m < 2^53` and `-1074 ≤ e ≤ 971` (normals).  `nan neg frac`
is the NaN with that sign bit and 52-bit fraction field.  Every operation
rounds its exact result to binary64 in the default rounding mode; NaNs are
handled as the x86-64 scalar instructions handle them, the left operand of the
source expression being the first operand of the instruction. -/
inductive Double where
  | nan (neg : Bool) (frac : Nat) : Double
  | inf (neg : Bool) : Double
  | fin (neg : Bool) (m : Nat) (e : Int) : Double
deriving DecidableEq

/-- Least `j` at or above the start with `n < 2^(2^j)`. -/
def log2Bound : Nat → Nat → Nat → Nat
  | 0, j, _ => j
  | fuel + 1, j, n => if n < 1 <<< (1 <<< j) then j else log2Bound fuel (j + 1) n

/-- Binary descent: `⌊log₂ n⌋` for `0 < n < 2^(2^j)`. -/
def log2Desc : Nat → Nat → Nat
  | 0, _ => 0
  | j + 1, n =>
    if 1 <<< (1 <<< j) ≤ n then 1 <<< j + log2Desc j (n >>> (1 <<< j)) else log2Desc j n

/-- The integer `⌊log₂ n⌋` (and `0` at `n = 0`). -/
def natLog2 (n : Nat) : Nat := log2Desc (log2Bound n 0 n) n

/-- Numerator of `n / d * 2^k` written as a fraction of naturals. -/
def scaleNum (n : Nat) (k : Int) : Nat := if 0 ≤ k then n <<< k.toNat else n

/-- Denominator of `n / d * 2^k` written as a fraction of naturals. -/
def scaleDen (d : Nat) (k : Int) : Nat := if 0 ≤ k then d else d <<< (-k).toNat

/-- The integer `⌊log₂ (n / d)⌋` for `0 < n` and `0 < d`. -/
def ratLog2 (n d : Nat) : Int :=
  let a : Int := (natLog2 n : Int) - (natLog2 d : Int)
  if scaleDen d (-a) ≤ scaleNum n (-a) then a else a - 1

/-- The quotient `N / D` rounded to the nearest integer, ties to even. -/
def divNE (N D : Nat) : Nat :=
  let m := N / D
  let r := N % D
  if D < 2 * r ∨ (2 * r = D ∧ m % 2 = 1) then m + 1 else m

/-- Round the real number `(-1)^neg * n / d * 2^k` (`0 < d`) to binary64, to
nearest with ties to even: 53 significant bits, least exponent `-1074`,
overflow to infinity from `2^1024` on. -/
def roundNE (neg : Bool) (n d : Nat) (k : Int) : Double :=
  if n = 0 then .fin neg 0 (-1074)
  else
    let q : Int := max (ratLog2 n d + k - 52) (-1074)
    let m := divNE (scaleNum n (k - q)) (scaleDen d (k - q))
    if m = 9007199254740992 then
      (if 971 < q + 1 then .inf neg else .fin neg 4503599627370496 (q + 1))
    else if 971 < q then .inf neg else .fin neg m q

namespace Double

/-- The NaN an operation returns for a NaN operand: the operand made quiet
(fraction bit 51 set, the lower bits kept). -/
def quiet (neg : Bool) (frac : Nat) : Double :=
  nan neg (frac % 2251799813685248 + 2251799813685248)

/-- The NaN an invalid operation on other operands returns: sign bit set,
fraction `2^51`. -/
def defaultNaN : Double := nan true 2251799813685248

/-- Whether the datum is a NaN. -/
def isNaN : Double → Bool
  | nan _ _ => true
  | inf _ => false
  | fin _ _ _ => false

/-- The integer `(-1)^neg * m`. -/
def signed (neg : Bool) (m : Nat) : Int := if neg then -(m : Int) else (m : Int)

/-- IEEE 754 addition (`a + b` on `double`). -/
def add : Double → Double → Double
  | nan s p, _ => quiet s p
  | _, nan t q => quiet t q
  | inf s, inf t => if s = t then inf s else defaultNaN
  | inf s, fin _ _ _ => inf s
  | fin _ _ _, inf t => inf t
  | fin s m e, fin t n f =>
    let g := min e f
    let sum : Int := signed s (m <<< (e - g).toNat) + signed t (n <<< (f - g).toNat)
    if sum = 0 then fin (s && t) 0 (-1074)
    else roundNE (decide (sum < 0)) sum.natAbs 1 g

/-- IEEE 754 multiplication (`a * b` on `double`). -/
def mul : Double → Double → Double
  | nan s p, _ => quiet s p
  | _, nan t q => quiet t q
  | inf s, inf t => inf (xor s t)
  | inf s, fin t n _ => if n = 0 then defaultNaN else inf (xor s t)
  | fin s m _, inf t => if m = 0 then defaultNaN else inf (xor s t)
  | fin s m e, fin t n f => roundNE (xor s t) (m * n) 1 (e + f)

/-- IEEE 754 division (`a / b` on `double`). -/
def div : Double → Double → Double
  | nan s p, _ => quiet s p
  | _, nan t q => quiet t q
  | inf _, inf _ => defaultNaN
  | inf s, fin t _ _ => inf (xor s t)
  | fin s _ _, inf t => fin (xor s t) 0 (-1074)
  | fin s m e, fin t n f =>
    if n = 0 then (if m = 0 then defaultNaN else inf (xor s t))
    else roundNE (xor s t) m n (e - f)

instance : Add Double := ⟨add⟩
instance : Mul Double := ⟨mul⟩
instance : Div Double := ⟨div⟩

/-- A decimal floating literal `m e±x` of the source, converted to the nearest
`double`. -/
instance : OfScientific Double :=
  ⟨fun m s x => if s then roundNE false m (10 ^ x) 0 else roundNE false (m * 10 ^ x) 1 0⟩

/-- An integer literal of the source, converted to `double`. -/
instance (n : Nat) : OfNat Double n := ⟨roundNE false n 1 0⟩

/-- The rational number a finite datum stands for (`none` for NaN and the
infinities). -/
def toRat? : Double → Option ℚ
  | nan _ _ => none
  | inf _ => none
  | fin s m e => some ((signed s m : ℚ) * (2 : ℚ) ^ e)

/-- Canonical form: a NaN with fraction in `[1, 2^52)`, an infinity, or
`fin neg m e` with `-1074 ≤ e ≤ 971`, `m < 2^53`, and `2^52 ≤ m` unless
`e = -1074`. -/
def canonical : Double → Bool
  | nan _ p => decide (0 < p ∧ p < 4503599627370496)
  | inf _ => true
  | fin _ m e =>
    decide (-1074 ≤ e ∧ e ≤ 971 ∧ m < 9007199254740992 ∧ (4503599627370496 ≤ m ∨ e = -1074))

/-- The operator `==` of `double`: NaN differs from everything, the two zeros
are equal. -/
def eqIEEE : Double → Double → Bool
  | nan _ _, _ => false
  | _, nan _ _ => false
  | inf s, inf t => s == t
  | inf _, fin _ _ _ => false
  | fin _ _ _, inf _ => false
  | fin s m e, fin t n f =>
    let g := min e f
    signed s (m <<< (e - g).toNat) == signed t (n <<< (f - g).toNat)

end Double

/-! ## Output streams -/

/-- Whether `10^c ≤ n / d * 2^k`. -/
def pow10Le (c : Int) (n d : Nat) (k : Int) : Bool :=
  if 0 ≤ c then decide (scaleDen d k * 10 ^ c.toNat ≤ scaleNum n k)
  else decide (scaleDen d k ≤ scaleNum n k * 10 ^ (-c).toNat)

/-- Move a guess `c` to `⌊log₁₀ (n / d * 2^k)⌋`. -/
def log10Adjust : Nat → Int → Nat → Nat → Int → Int
  | 0, c, _, _, _ => c
  | fuel + 1, c, n, d, k =>
    if !pow10Le c n d k then log10Adjust fuel (c - 1) n d k
    else if pow10Le (c + 1) n d k then log10Adjust fuel (c + 1) n d k
    else c

/-- Drop the zeros at the end of a digit string. -/
def stripZeros (ds : List Char) : List Char := (ds.reverse.dropWhile (· == '0')).reverse

/-- The conversion `%g` with precision 6 of the positive number `n / d * 2^k`:
six significant digits, rounded to nearest with ties to even; scientific
style when the decimal exponent is below `-4` or at least `6`, fixed style
otherwise; trailing zeros removed. -/
def formatPos (n d : Nat) (k : Int) : String :=
  let l := ratLog2 n d + k
  let x0 := log10Adjust (l.natAbs + 4) (l * 30103 / 100000) n d k
  let s := x0 - 5
  let N := if 0 ≤ s then scaleNum n k else scaleNum n k * 10 ^ (-s).toNat
  let D := if 0 ≤ s then scaleDen d k * 10 ^ s.toNat else scaleDen d k
  let m1 := divNE N D
  let digits := if m1 = 1000000 then 100000 else m1
  let x := if m1 = 1000000 then x0 + 1 else x0
  let ds := Nat.toDigits 10 digits
  if x < -4 ∨ 6 ≤ x then
    let frac := stripZeros (ds.drop 1)
    String.mk (ds.take 1 ++ (if frac.isEmpty then [] else '.' :: frac))
      ++ "e" ++ (if x < 0 then "-" else "+")
      ++ (if x.natAbs < 10 then "0" else "") ++ toString x.natAbs
  else if 0 ≤ x then
    let frac := stripZeros (ds.drop (x.toNat + 1))
    String.mk (ds.take (x.toNat + 1) ++ (if frac.isEmpty then [] else '.' :: frac))
  else
    "0." ++ String.mk (List.replicate ((-x).toNat - 1) '0' ++ stripZeros ds)

/-- Rendering of a `double` by a stream in its initial format state (general
style, precision 6), as `std::cout` is throughout the program. -/
def defaultFormat : Double → String
  | .nan s _ => if s then "-nan" else "nan"
  | .inf s => if s then "-inf" else "inf"
  | .fin s m e =>
    (if s then "-" else "") ++ (if m = 0 then "0" else formatPos m 1 e)

/-- An output stream: the text written so far, and the rendering of a `double`
its format state selects (field width 0, as in every stream of the program). -/
structure ostream where
  text : String
  fmt : Double → String

namespace ostream

/-- The insertion `os << "..."` of a string literal. -/
def putStr (os : ostream) (s : String) : ostream := { os with text := os.text ++ s }

/-- The insertion `os << d` of a `double`. -/
def putDouble (os : ostream) (d : Double) : ostream := { os with text := os.text ++ os.fmt d }

/-- The manipulator `std::endl`: a newline (and a flush, which leaves the text as it is). -/
def endl (os : ostream) : ostream := os.putStr "\n"

end ostream

/-- The stream `std::cout` at program start. -/
def cout0 : ostream := ⟨"", defaultFormat⟩

/-! ## Constants -/

/-- The macro `M_PI` of `<cmath>`. -/
def M_PI : Double := 3.14159265358979323846

/-- Permittivity of free space in F/m. -/
def EPSILON_0 : Double := 8.854187817e-12

/-- Permeability of free space in H/m. -/
def MU_0 : Double := 4 * M_PI * 1e-7

/-! ## The classes -/

/-- Class `Field`: the member `double value[3]`, entries `value[0]`,
`value[1]`, `value[2]`. -/
structure Field where
  value0 : Double
  value1 : Double
  value2 : Double
deriving DecidableEq

namespace Field

/-- Default constructor `Field()`. -/
def ctor0 : Field := ⟨0.0, 0.0, 0.0⟩

/-- Constructor `Field(double x, double y, double z)`. -/
def ctor (x y z : Double) : Field := ⟨x, y, z⟩

/-- Whether one of the three components is a NaN. -/
def hasNaN (self : Field) : Bool :=
  self.value0.isNaN || self.value1.isNaN || self.value2.isNaN

/-- Member `Field::printMagnitude`, writing to `std::cout`. -/
def printMagnitude (self : Field) (cout : ostream) : ostream :=
  ((((((cout.putStr "Field components: (").putDouble self.value0).putStr ", ").putDouble
    self.value1).putStr ", ").putDouble self.value2).putStr ")\n"

end Field

/-- The effect of one call of a binary `operator+`: the states of the left and
right operand after the call, and the object returned. -/
structure PlusEffect (α : Type) where
  self : α
  other : α
  result : α

/-- Class `ElectricField : public Field` with its member `calculatedField`. -/
structure ElectricField extends Field where
  calculatedField : Double
deriving DecidableEq

namespace ElectricField

/-- Constructor `ElectricField(double x, double y, double z)`. -/
def ctor (x y z : Double) : ElectricField :=
  { toField := Field.ctor x y z, calculatedField := 0.0 }

/-- Member `calculateElectricField`: the object after the call. -/
def calculateElectricField (self : ElectricField) (Q r : Double) : ElectricField :=
  { self with calculatedField := Q / (4 * M_PI * r * r * EPSILON_0) }

/-- Member `operator+` as a state transformer: the two operand objects after the
call and the object returned.  The member is `const` and takes `other` by
`const` reference, so it reads both operands and writes to neither. -/
def operatorPlus (self other : ElectricField) : PlusEffect ElectricField :=
  { self := self
    other := other
    result := ctor (self.value0 + other.value0) (self.value1 + other.value1)
      (self.value2 + other.value2) }

/-- The value of the expression `self + other`. -/
def add (self other : ElectricField) : ElectricField := (operatorPlus self other).result

instance : Add ElectricField := ⟨add⟩

/-- Copy constructor. -/
def copy (other : ElectricField) : ElectricField :=
  { toField := other.toField, calculatedField := other.calculatedField }

/-- Member `ElectricField::printMagnitude`, writing to `std::cout`. -/
def printMagnitude (self : ElectricField) (cout : ostream) : ostream :=
  let cout := self.toField.printMagnitude cout
  ((cout.putStr "Calculated Electric Field: ").putDouble self.calculatedField).putStr " N/C\n"

/-- Friend `operator<<(std::ostream&, const ElectricField&)`. -/
def insert (os : ostream) (e : ElectricField) : ostream :=
  ((((((os.putStr "Electric Field components: (").putDouble e.value0).putStr ", ").putDouble
    e.value1).putStr ", ").putDouble e.value2).putStr ")"

end ElectricField

/-- Class `MagneticField : public Field` with its member `calculatedField`. -/
structure MagneticField extends Field where
  calculatedField : Double
deriving DecidableEq

namespace MagneticField

/-- Constructor `MagneticField(double x, double y, double z)`. -/
def ctor (x y z : Double) : MagneticField :=
  { toField := Field.ctor x y z, calculatedField := 0.0 }

/-- Member `calculateMagneticField`: the object after the call. -/
def calculateMagneticField (self : MagneticField) (I r : Double) : MagneticField :=
  { self with calculatedField := (MU_0 * I) / (2 * M_PI * r) }

/-- Member `operator+` as a state transformer: the two operand objects after the
call and the object returned.  The member is `const` and takes `other` by
`const` reference, so it reads both operands and writes to neither. -/
def operatorPlus (self other : MagneticField) : PlusEffect MagneticField :=
  { self := self
    other := other
    result := ctor (self.value0 + other.value0) (self.value1 + other.value1)
      (self.value2 + other.value2) }

/-- The value of the expression `self + other`. -/
def add (self other : MagneticField) : MagneticField := (operatorPlus self other).result

instance : Add MagneticField := ⟨add⟩

/-- Copy constructor. -/
def copy (other : MagneticField) : MagneticField :=
  { toField := other.toField, calculatedField := other.calculatedField }

/-- Member `MagneticField::printMagnitude`, writing to `std::cout`. -/
def printMagnitude (self : MagneticField) (cout : ostream) : ostream :=
  let cout := self.toField.printMagnitude cout
  ((cout.putStr "Calculated Magnetic Field: ").putDouble self.calculatedField).putStr " T\n"

/-- Friend `operator<<(std::ostream&, const MagneticField&)`. -/
def insert (os : ostream) (m : MagneticField) : ostream :=
  ((((((os.putStr "Magnetic Field components: (").putDouble m.value0).putStr ", ").putDouble
    m.value1).putStr ", ").putDouble m.value2).putStr ")"

end MagneticField

/-! ## The entry routine -/

/-- The locals of `main` when it returns, the stream `std::cout` and the exit status. -/
structure MainResult where
  e1 : ElectricField
  m1 : MagneticField
  Q : Double
  r : Double
  I : Double
  e2 : ElectricField
  e3 : ElectricField
  m2 : MagneticField
  m3 : MagneticField
  cout : ostream
  status : Int

/-- Function `main`, run with `std::cout` in the given state. -/
def main (cout : ostream) : MainResult :=
  let e1 := ElectricField.ctor 0 1e5 1e3
  let m1 := MagneticField.ctor 1e-4 2e-4 3e-4
  let cout := cout.putStr "Initial Electric and Magnetic Field Components:\n"
  let cout := e1.printMagnitude cout
  let cout := m1.printMagnitude cout
  let Q : Double := 1e-6
  let r : Double := 0.05
  let e1 := e1.calculateElectricField Q r
  let cout := cout.putStr "\nAfter calculating Electric Field:\n"
  let cout := e1.printMagnitude cout
  let I : Double := 10.0
  let m1 := m1.calculateMagneticField I r
  let cout := cout.putStr "\nAfter calculating Magnetic Field:\n"
  let cout := m1.printMagnitude cout
  let e2 := ElectricField.ctor 1e4 2e4 3e4
  let plusE := e1.operatorPlus e2
  let e1 := plusE.self
  let e2 := plusE.other
  let e3 := plusE.result
  let cout := (ElectricField.insert (cout.putStr "\nAfter adding two Electric Fields:\n") e3).endl
  let m2 := MagneticField.ctor 2e-4 3e-4 1e-4
  let plusM := m1.operatorPlus m2
  let m1 := plusM.self
  let m2 := plusM.other
  let m3 := plusM.result
  let cout := (MagneticField.insert (cout.putStr "\nAfter adding two Magnetic Fields:\n") m3).endl
  { e1 := e1, m1 := m1, Q := Q, r := r, I := I, e2 := e2, e3 := e3, m2 := m2, m3 := m3,
    cout := cout, status := 0 }

/-! ## Facts about the arithmetic -/

/-- Binary64 addition is commutative wherever the sum is not a NaN. -/
theorem Double.add_comm_of_not_nan (x y : Double) (h : (x + y).isNaN = false) :
    x + y = y + x := by
  change (Double.add x y).isNaN = false at h
  show Double.add x y = Double.add y x
  cases x with
  | nan s p => cases y <;> simp [Double.add, Double.quiet, Double.isNaN] at h
  | inf s =>
    cases y with
    | nan t q => simp [Double.add, Double.quiet, Double.isNaN] at h
    | inf t =>
      cases s <;> cases t <;> rfl
    | fin t n f => rfl
  | fin s m e =>
    cases y with
    | nan t q => simp [Double.add, Double.quiet, Double.isNaN] at h
    | inf t => rfl
    | fin t n f =>
      simp only [Double.add, min_comm e f, Int.add_comm (Double.signed s _), Bool.and_comm s t]

/-- Under `==` a datum that is not a NaN equals itself. -/
theorem Double.eqIEEE_self (x : Double) (h : x.isNaN = false) : Double.eqIEEE x x = true := by
  cases x with
  | nan s p => simp [Double.isNaN] at h
  | inf s => simp [Double.eqIEEE]
  | fin s m e => simp [Double.eqIEEE]

/-! ### The integer logarithm -/

/-- The search of `log2Bound` ends at an exponent that bounds `n`. -/
theorem log2Bound_spec (fuel j n : Nat) (h : n < 2 ^ 2 ^ (j + fuel)) :
    n < 2 ^ 2 ^ log2Bound fuel j n := by
  induction fuel generalizing j with
  | zero => simpa [log2Bound] using h
  | succ fuel ih =>
    unfold log2Bound
    split
    · next hlt => simpa [Nat.one_shiftLeft] using hlt
    · exact ih (j + 1) (by rwa [Nat.add_assoc, Nat.add_comm 1 fuel])

/-- Binary descent brackets `n` between consecutive powers of two. -/
theorem log2Desc_spec (j n : Nat) (h0 : 0 < n) (h : n < 2 ^ 2 ^ j) :
    2 ^ log2Desc j n ≤ n ∧ n < 2 ^ (log2Desc j n + 1) := by
  induction j generalizing n with
  | zero =>
    have : n = 1 := by simp at h; omega
    subst this
    simp [log2Desc]
  | succ j ih =>
    unfold log2Desc
    simp only [Nat.one_shiftLeft, Nat.shiftRight_eq_div_pow]
    have hP : 0 < 2 ^ 2 ^ j := Nat.pow_pos (by norm_num)
    split
    · next hle =>
      have h1 : 0 < n / 2 ^ 2 ^ j := Nat.div_pos hle hP
      have h2 : n / 2 ^ 2 ^ j < 2 ^ 2 ^ j := by
        rw [Nat.div_lt_iff_lt_mul hP, ← Nat.pow_add]
        have : 2 ^ j + 2 ^ j = 2 ^ (j + 1) := by rw [Nat.pow_succ]; omega
        rwa [this]
      obtain ⟨ha, hb⟩ := ih _ h1 h2
      constructor
      · calc 2 ^ (2 ^ j + log2Desc j (n / 2 ^ 2 ^ j))
            = 2 ^ 2 ^ j * 2 ^ log2Desc j (n / 2 ^ 2 ^ j) := by rw [Nat.pow_add]
          _ ≤ 2 ^ 2 ^ j * (n / 2 ^ 2 ^ j) := Nat.mul_le_mul_left _ ha
          _ ≤ n := Nat.mul_div_le _ _
      · calc n < 2 ^ 2 ^ j * (n / 2 ^ 2 ^ j + 1) := Nat.lt_mul_div_succ _ hP
          _ ≤ 2 ^ 2 ^ j * 2 ^ (log2Desc j (n / 2 ^ 2 ^ j) + 1) := Nat.mul_le_mul_left _ hb
          _ = 2 ^ (2 ^ j + log2Desc j (n / 2 ^ 2 ^ j) + 1) := by
            rw [← Nat.pow_add, Nat.add_assoc]
    · next hlt => exact ih n h0 (Nat.lt_of_not_le hlt)

/-- The value `natLog2 n` is `⌊log₂ n⌋`: `2^(natLog2 n) ≤ n < 2^(natLog2 n + 1)`. -/
theorem natLog2_spec (n : Nat) (h0 : 0 < n) :
    2 ^ natLog2 n ≤ n ∧ n < 2 ^ (natLog2 n + 1) := by
  unfold natLog2
  apply log2Desc_spec _ _ h0
  apply log2Bound_spec
  calc n < 2 ^ n := Nat.lt_two_pow n
    _ ≤ 2 ^ 2 ^ (0 + n) := by
      apply Nat.pow_le_pow_right (by norm_num)
      rw [Nat.zero_add]
      exact Nat.le_of_lt (Nat.lt_two_pow n)

/-! ### Rounding -/

/-- The scaled numerator over the scaled denominator is `n / d * 2^k`. -/
theorem scale_div (n d : Nat) (k : Int) (hd : 0 < d) :
    (scaleNum n k : ℚ) / (scaleDen d k : ℚ) = (n : ℚ) / d * 2 ^ k := by
  have hd' : (d : ℚ) ≠ 0 := by positivity
  unfold scaleNum scaleDen
  split
  · next hk =>
    obtain ⟨j, rfl⟩ := Int.eq_ofNat_of_zero_le hk
    simp only [Int.toNat_ofNat, Nat.shiftLeft_eq, Nat.cast_mul, Nat.cast_pow, Nat.cast_ofNat,
      zpow_natCast]
    ring
  · next hk =>
    obtain ⟨j, hj⟩ := Int.eq_ofNat_of_zero_le (show 0 ≤ -k by omega)
    have hk' : k = -(j : Int) := by omega
    subst hk'
    simp only [neg_neg, Int.toNat_ofNat, Nat.shiftLeft_eq, Nat.cast_mul, Nat.cast_pow,
      Nat.cast_ofNat, zpow_neg, zpow_natCast]
    field_simp

/-- Scaling keeps the denominator positive. -/
theorem scaleDen_pos (d : Nat) (k : Int) (hd : 0 < d) : 0 < scaleDen d k := by
  unfold scaleDen
  split
  · exact hd
  · rw [Nat.shiftLeft_eq]; positivity

/-- The value `ratLog2 n d` is `⌊log₂ (n / d)⌋`. -/
theorem ratLog2_spec (n d : Nat) (hn : 0 < n) (hd : 0 < d) :
    (2 : ℚ) ^ ratLog2 n d ≤ (n : ℚ) / d ∧ (n : ℚ) / d < 2 ^ (ratLog2 n d + 1) := by
  obtain ⟨hn1, hn2⟩ := natLog2_spec n hn
  obtain ⟨hd1, hd2⟩ := natLog2_spec d hd
  have hdq : (0 : ℚ) < d := by positivity
  have hn1q : (2 : ℚ) ^ (natLog2 n : Int) ≤ n := by
    rw [zpow_natCast]; exact_mod_cast hn1
  have hn2q : (n : ℚ) < 2 ^ ((natLog2 n : Int) + 1) := by
    rw [show ((natLog2 n : Int) + 1) = ((natLog2 n + 1 : Nat) : Int) by push_cast; rfl,
      zpow_natCast]
    exact_mod_cast hn2
  have hd1q : (2 : ℚ) ^ (natLog2 d : Int) ≤ d := by
    rw [zpow_natCast]; exact_mod_cast hd1
  have hd2q : (d : ℚ) < 2 ^ ((natLog2 d : Int) + 1) := by
    rw [show ((natLog2 d : Int) + 1) = ((natLog2 d + 1 : Nat) : Int) by push_cast; rfl,
      zpow_natCast]
    exact_mod_cast hd2
  have h2 : (0 : ℚ) < 2 := by norm_num
  unfold ratLog2
  simp only
  set a : Int := (natLog2 n : Int) - (natLog2 d : Int) with ha
  have hsc := scale_div n d (-a) hd
  have hsd : (0 : ℚ) < scaleDen d (-a) := by exact_mod_cast scaleDen_pos d (-a) hd
  split
  · next hle =>
    have hle' : (scaleDen d (-a) : ℚ) ≤ scaleNum n (-a) := by exact_mod_cast hle
    have h1 : (1 : ℚ) ≤ (n : ℚ) / d * 2 ^ (-a) := by
      rw [← hsc, le_div_iff₀ hsd]; simpa using hle'
    constructor
    · rw [zpow_neg, ← div_eq_mul_inv, le_div_iff₀ (zpow_pos h2 a)] at h1
      simpa using h1
    · rw [div_lt_iff₀ hdq]
      calc (n : ℚ) < 2 ^ ((natLog2 n : Int) + 1) := hn2q
        _ = 2 ^ (a + 1) * 2 ^ (natLog2 d : Int) := by
          rw [← zpow_add₀ (by norm_num : (2 : ℚ) ≠ 0)]; congr 1; omega
        _ ≤ 2 ^ (a + 1) * d := by
          apply mul_le_mul_of_nonneg_left hd1q (le_of_lt (zpow_pos h2 _))
  · next hnle =>
    have hlt' : (scaleNum n (-a) : ℚ) < scaleDen d (-a) := by
      exact_mod_cast Nat.lt_of_not_le hnle
    have h1 : (n : ℚ) / d * 2 ^ (-a) < 1 := by
      rw [← hsc, div_lt_iff₀ hsd]; simpa using hlt'
    constructor
    · rw [le_div_iff₀ hdq]
      calc (2 : ℚ) ^ (a - 1) * d ≤ 2 ^ (a - 1) * 2 ^ ((natLog2 d : Int) + 1) := by
            apply mul_le_mul_of_nonneg_left (le_of_lt hd2q) (le_of_lt (zpow_pos h2 _))
        _ = 2 ^ (natLog2 n : Int) := by
          rw [← zpow_add₀ (by norm_num : (2 : ℚ) ≠ 0)]; congr 1; omega
        _ ≤ n := hn1q
    · rw [zpow_neg, ← div_eq_mul_inv, div_lt_iff₀ (zpow_pos h2 a)] at h1
      simpa using h1

/-- Rounding a quotient to the nearest integer moves it by at most one half. -/
theorem divNE_err (N D : Nat) (hD : 0 < D) : |(divNE N D : ℚ) - (N : ℚ) / D| ≤ 1 / 2 := by
  have hDq : (0 : ℚ) < D := by positivity
  have hkey : (N : ℚ) = D * (N / D : Nat) + (N % D : Nat) := by
    exact_mod_cast (Nat.div_add_mod N D).symm
  have hr : N % D < D := Nat.mod_lt _ hD
  have hq : (N : ℚ) / D = (N / D : Nat) + ((N % D : Nat) : ℚ) / D := by
    rw [div_eq_iff hDq.ne']
    rw [add_mul, div_mul_cancel₀ _ hDq.ne']
    linarith
  rw [hq]
  have hrq : ((N % D : Nat) : ℚ) / D < 1 := by
    rw [div_lt_one hDq]; exact_mod_cast hr
  have hr0 : 0 ≤ ((N % D : Nat) : ℚ) / D := by positivity
  unfold divNE
  simp only
  split
  · next hc =>
    have h2 : D ≤ 2 * (N % D) := by
      rcases hc with h | ⟨h, -⟩ <;> omega
    have h2q : (1 : ℚ) / 2 ≤ ((N % D : Nat) : ℚ) / D := by
      rw [le_div_iff₀ hDq]
      have : (D : ℚ) ≤ 2 * (N % D : Nat) := by exact_mod_cast h2
      linarith
    rw [abs_le]
    push_cast
    constructor <;> linarith
  · next hc =>
    have h2 : 2 * (N % D) ≤ D := by
      by_contra h
      exact hc (Or.inl (by omega))
    have h2q : ((N % D : Nat) : ℚ) / D ≤ 1 / 2 := by
      rw [div_le_iff₀ hDq]
      have : (2 : ℚ) * (N % D : Nat) ≤ D := by exact_mod_cast h2
      linarith
    rw [abs_le]
    constructor <;> linarith

/-- In the normal range `[2^-1022, 2^1023)` rounding yields a finite datum within
relative error `2^-53` of the number rounded. -/
theorem roundNE_spec (neg : Bool) (n d : Nat) (k : Int) (hn : 0 < n) (hd : 0 < d)
    (hlo : (2 : ℚ) ^ (-1022 : Int) ≤ (n : ℚ) / d * 2 ^ k)
    (hhi : (n : ℚ) / d * 2 ^ k < 2 ^ (1023 : Int)) :
    ∃ m q, roundNE neg n d k = .fin neg m q
      ∧ |(m : ℚ) * 2 ^ q - (n : ℚ) / d * 2 ^ k| ≤ 2 ^ (-53 : Int) * ((n : ℚ) / d * 2 ^ k) := by
  have h2 : (0 : ℚ) < 2 := by norm_num
  have h2' : (2 : ℚ) ≠ 0 := by norm_num
  have h12 : (1 : ℚ) < 2 := by norm_num
  obtain ⟨hL1, hL2⟩ := ratLog2_spec n d hn hd
  set L := ratLog2 n d with hL
  set x : ℚ := (n : ℚ) / d * 2 ^ k with hx
  have hk : (0 : ℚ) < 2 ^ k := zpow_pos h2 k
  have hx1 : (2 : ℚ) ^ (L + k) ≤ x := by
    rw [zpow_add₀ h2']; exact mul_le_mul_of_nonneg_right hL1 hk.le
  have hx2 : x < (2 : ℚ) ^ (L + k + 1) := by
    rw [show L + k + 1 = (L + 1) + k by ring, zpow_add₀ h2']
    exact mul_lt_mul_of_pos_right hL2 hk
  have hb1 : (-1022 : Int) < L + k + 1 :=
    (zpow_lt_zpow_iff_right₀ h12).1 (lt_of_le_of_lt hlo hx2)
  have hb2 : L + k < 1023 :=
    (zpow_lt_zpow_iff_right₀ h12).1 (lt_of_le_of_lt hx1 hhi)
  have hq : max (L + k - 52) (-1074) = L + k - 52 := max_eq_left (by omega)
  have hsc := scale_div n d (k - (L + k - 52)) hd
  have hsd := scaleDen_pos d (k - (L + k - 52)) hd
  have herr := divNE_err (scaleNum n (k - (L + k - 52))) (scaleDen d (k - (L + k - 52))) hsd
  rw [hsc] at herr
  set m := divNE (scaleNum n (k - (L + k - 52))) (scaleDen d (k - (L + k - 52))) with hm
  have hqp : (0 : ℚ) < 2 ^ (L + k - 52) := zpow_pos h2 _
  -- error of `m * 2^q` against `x`
  have hval : |(m : ℚ) * 2 ^ (L + k - 52) - x| ≤ 2 ^ (-53 : Int) * x := by
    have e1 : (n : ℚ) / d * 2 ^ (k - (L + k - 52)) = x * (2 ^ (L + k - 52))⁻¹ := by
      rw [hx, zpow_sub₀ h2']
      ring
    rw [e1] at herr
    have e2 : (m : ℚ) * 2 ^ (L + k - 52) - x
        = ((m : ℚ) - x * (2 ^ (L + k - 52))⁻¹) * 2 ^ (L + k - 52) := by
      field_simp
    rw [e2, abs_mul, abs_of_pos hqp]
    calc |(m : ℚ) - x * (2 ^ (L + k - 52))⁻¹| * 2 ^ (L + k - 52)
        ≤ 1 / 2 * 2 ^ (L + k - 52) := mul_le_mul_of_nonneg_right herr hqp.le
      _ = 2 ^ (-53 : Int) * 2 ^ (L + k) := by
        rw [show L + k - 52 = (L + k) + (-52) by ring, zpow_add₀ h2']
        norm_num
        ring
      _ ≤ 2 ^ (-53 : Int) * x := mul_le_mul_of_nonneg_left hx1 (zpow_pos h2 _).le
  unfold roundNE
  rw [if_neg (Nat.pos_iff_ne_zero.1 hn)]
  simp only [← hL, hq, ← hm]
  split
  · next hc =>
    rw [if_neg (by omega)]
    refine ⟨_, _, rfl, ?_⟩
    have : ((4503599627370496 : Nat) : ℚ) * 2 ^ (L + k - 52 + 1) = (m : ℚ) * 2 ^ (L + k - 52) := by
      rw [hc, zpow_add₀ h2']
      push_cast
      ring
    rw [this]
    exact hval
  · rw [if_neg (by omega)]
    exact ⟨_, _, rfl, hval⟩

/-! ### Canonical form -/

/-- The quotient rounded to nearest stays between integer bounds of the
quotient. -/
theorem divNE_bounds (N D a b : Nat) (hD : 0 < D) (ha : (a : ℚ) ≤ (N : ℚ) / D)
    (hb : (N : ℚ) / D < b) : a ≤ divNE N D ∧ divNE N D ≤ b := by
  obtain ⟨h1, h2⟩ := abs_le.1 (divNE_err N D hD)
  constructor
  · have : (a : ℚ) < (divNE N D : ℚ) + 1 := by linarith
    have : a < divNE N D + 1 := by exact_mod_cast this
    omega
  · have : (divNE N D : ℚ) < (b : ℚ) + 1 := by linarith
    have : divNE N D < b + 1 := by exact_mod_cast this
    omega

/-- Rounding yields an infinity or a finite datum in canonical form. -/
theorem roundNE_canonical (neg : Bool) (n d : Nat) (k : Int) (hd : 0 < d) :
    (roundNE neg n d k).canonical = true := by
  have h2 : (0 : ℚ) < 2 := by norm_num
  have h2' : (2 : ℚ) ≠ 0 := by norm_num
  have h12 : (1 : ℚ) < 2 := by norm_num
  unfold roundNE
  split
  · simp [Double.canonical]
  · next hn0 =>
    have hn : 0 < n := Nat.pos_of_ne_zero hn0
    obtain ⟨hL1, hL2⟩ := ratLog2_spec n d hn hd
    set L := ratLog2 n d with hL
    simp only
    set q : Int := max (L + k - 52) (-1074) with hq
    have hq1 : -1074 ≤ q := le_max_right _ _
    have hq2 : L + k - 52 ≤ q := le_max_left _ _
    have hsc := scale_div n d (k - q) hd
    have hsd := scaleDen_pos d (k - q) hd
    have hk : (0 : ℚ) < 2 ^ (k - q) := zpow_pos h2 _
    -- the scaled quotient is below `2^53`
    have hup : (scaleNum n (k - q) : ℚ) / scaleDen d (k - q) < (9007199254740992 : Nat) := by
      rw [hsc]
      calc (n : ℚ) / d * 2 ^ (k - q) < 2 ^ (L + 1) * 2 ^ (k - q) :=
            mul_lt_mul_of_pos_right hL2 hk
        _ = 2 ^ (L + 1 + (k - q)) := (zpow_add₀ h2' _ _).symm
        _ ≤ 2 ^ (53 : Int) := (zpow_le_zpow_iff_right₀ h12).2 (by omega)
        _ = (9007199254740992 : Nat) := by norm_num
    have hm53 := (divNE_bounds _ _ 0 _ hsd (by positivity) hup).2
    -- in the normal case it is at least `2^52`
    have hlo : q = L + k - 52 →
        4503599627370496 ≤ divNE (scaleNum n (k - q)) (scaleDen d (k - q)) := by
      intro hqe
      refine (divNE_bounds _ _ 4503599627370496 _ hsd ?_ hup).1
      rw [hsc]
      calc ((4503599627370496 : Nat) : ℚ) = 2 ^ (52 : Int) := by norm_num
        _ = 2 ^ (L + (k - q)) := by congr 1; omega
        _ = 2 ^ L * 2 ^ (k - q) := zpow_add₀ h2' _ _
        _ ≤ (n : ℚ) / d * 2 ^ (k - q) := mul_le_mul_of_nonneg_right hL1 hk.le
    have hcases : q = L + k - 52 ∨ q = -1074 := by
      rcases max_choice (L + k - 52) (-1074) with h | h
      · exact Or.inl (hq.trans h)
      · exact Or.inr (hq.trans h)
    set m := divNE (scaleNum n (k - q)) (scaleDen d (k - q)) with hm
    split
    · split
      · rfl
      · next hle =>
        simp only [Double.canonical, decide_eq_true_eq]
        omega
    · next hne =>
      split
      · rfl
      · next hle =>
        simp only [Double.canonical, decide_eq_true_eq]
        refine ⟨hq1, by omega, by omega, ?_⟩
        rcases hcases with h | h
        · exact Or.inl (hlo h)
        · exact Or.inr h

/-- A NaN made quiet is in canonical form. -/
theorem Double.quiet_canonical (s : Bool) (p : Nat) : (Double.quiet s p).canonical = true := by
  have h : p % 2251799813685248 < 2251799813685248 := Nat.mod_lt _ (by norm_num)
  simp only [Double.quiet, Double.canonical, decide_eq_true_eq]
  omega

/-- The default NaN is in canonical form. -/
theorem Double.defaultNaN_canonical : Double.defaultNaN.canonical = true := by
  simp [Double.defaultNaN, Double.canonical]

/-- Sums are in canonical form. -/
theorem Double.add_canonical (a b : Double) : (a + b).canonical = true := by
  show (Double.add a b).canonical = true
  cases a with
  | nan s p => cases b <;> exact Double.quiet_canonical s p
  | inf s =>
    cases b with
    | nan t q => exact Double.quiet_canonical t q
    | inf t =>
      simp only [Double.add]
      split
      · rfl
      · exact Double.defaultNaN_canonical
    | fin t n f => rfl
  | fin s m e =>
    cases b with
    | nan t q => exact Double.quiet_canonical t q
    | inf t => rfl
    | fin t n f =>
      simp only [Double.add]
      split
      · simp [Double.canonical]
      · exact roundNE_canonical _ _ _ _ (by norm_num)

/-- Products are in canonical form. -/
theorem Double.mul_canonical (a b : Double) : (a * b).canonical = true := by
  show (Double.mul a b).canonical = true
  cases a with
  | nan s p => cases b <;> exact Double.quiet_canonical s p
  | inf s =>
    cases b with
    | nan t q => exact Double.quiet_canonical t q
    | inf t => rfl
    | fin t n f =>
      simp only [Double.mul]
      split
      · exact Double.defaultNaN_canonical
      · rfl
  | fin s m e =>
    cases b with
    | nan t q => exact Double.quiet_canonical t q
    | inf t =>
      simp only [Double.mul]
      split
      · exact Double.defaultNaN_canonical
      · rfl
    | fin t n f => exact roundNE_canonical _ _ _ _ (by norm_num)

/-- Quotients are in canonical form. -/
theorem Double.div_canonical (a b : Double) : (a / b).canonical = true := by
  show (Double.div a b).canonical = true
  cases a with
  | nan s p => cases b <;> exact Double.quiet_canonical s p
  | inf s =>
    cases b with
    | nan t q => exact Double.quiet_canonical t q
    | inf t => exact Double.defaultNaN_canonical
    | fin t n f => rfl
  | fin s m e =>
    cases b with
    | nan t q => exact Double.quiet_canonical t q
    | inf t => simp [Double.div, Double.canonical]
    | fin t n f =>
      simp only [Double.div]
      split
      · split
        · exact Double.defaultNaN_canonical
        · rfl
      · next hn => exact roundNE_canonical _ _ _ _ (Nat.pos_of_ne_zero hn)

/-- The `double` of a decimal literal is in canonical form. -/
theorem Double.ofScientific_canonical (m : Nat) (s : Bool) (x : Nat) :
    (OfScientific.ofScientific m s x : Double).canonical = true := by
  show (if s then roundNE false m (10 ^ x) 0 else roundNE false (m * 10 ^ x) 1 0).canonical = true
  split
  · exact roundNE_canonical _ _ _ _ (by positivity)
  · exact roundNE_canonical _ _ _ _ (by norm_num)

/-! ### Multiplication and division -/

/-- Signs multiply by exclusive or. -/
theorem Double.signed_mul (s t : Bool) (m n : Nat) :
    ((Double.signed s m : Int) : ℚ) * (Double.signed t n : Int)
      = (Double.signed (xor s t) (m * n) : Int) := by
  cases s <;> cases t <;> simp [Double.signed]

/-- The magnitude of a signed significand. -/
theorem Double.abs_signed (s : Bool) (m : Nat) : |((Double.signed s m : Int) : ℚ)| = m := by
  cases s <;> simp [Double.signed]

/-- A common sign drops out of the distance of two signed quantities. -/
theorem Double.signed_sub (s : Bool) (m n : ℚ) (a b : Nat) (p q : ℚ)
    (hm : m = (Double.signed s a : Int)) (hn : n = (Double.signed s b : Int)) :
    |m * p - n * q| = |(a : ℚ) * p - (b : ℚ) * q| := by
  subst hm hn
  cases s
  · simp [Double.signed]
  · simp only [Double.signed, if_true, Int.cast_neg, Int.cast_natCast]
    rw [← abs_neg]
    congr 1
    ring

/-- A product of finite data whose exact value lies in the normal range is finite
and within relative error `2^-53` of the exact product. -/
theorem Double.mul_spec (a b : Double) (x y : ℚ) (ha : a.toRat? = some x)
    (hb : b.toRat? = some y) (hlo : (2 : ℚ) ^ (-1022 : Int) ≤ |x * y|)
    (hhi : |x * y| < 2 ^ (1023 : Int)) :
    ∃ z, (a * b).toRat? = some z ∧ |z - x * y| ≤ 2 ^ (-53 : Int) * |x * y| := by
  cases a with
  | nan s p => simp [Double.toRat?] at ha
  | inf s => simp [Double.toRat?] at ha
  | fin s m e =>
  cases b with
  | nan t q => simp [Double.toRat?] at hb
  | inf t => simp [Double.toRat?] at hb
  | fin t n f =>
  simp only [Double.toRat?, Option.some.injEq] at ha hb
  have h2' : (2 : ℚ) ≠ 0 := by norm_num
  have hxy : x * y = ((Double.signed (xor s t) (m * n) : Int) : ℚ) * 2 ^ (e + f) := by
    rw [← ha, ← hb, ← Double.signed_mul, zpow_add₀ h2']
    ring
  have habs : |x * y| = ((m * n : Nat) : ℚ) / (1 : Nat) * 2 ^ (e + f) := by
    rw [hxy, abs_mul, Double.abs_signed, abs_of_pos (zpow_pos (by norm_num) _)]
    simp
  have hmn : 0 < m * n := by
    rcases Nat.eq_zero_or_pos (m * n) with h0 | h0
    · rw [habs, h0] at hlo
      simp at hlo
      exact absurd hlo (not_le.2 (zpow_pos (by norm_num) _))
    · exact h0
  rw [habs] at hlo hhi
  obtain ⟨m', q', hr, herr⟩ := roundNE_spec (xor s t) (m * n) 1 (e + f) hmn (by norm_num) hlo hhi
  refine ⟨((Double.signed (xor s t) m' : Int) : ℚ) * 2 ^ q', ?_, ?_⟩
  · show (Double.mul (.fin s m e) (.fin t n f)).toRat? = _
    simp only [Double.mul, hr, Double.toRat?]
  · rw [habs, hxy, Double.signed_sub (xor s t) _ _ m' (m * n) _ _ rfl rfl]
    simpa using herr

/-- A quotient of finite data whose exact value lies in the normal range is
finite and within relative error `2^-53` of the exact quotient. -/
theorem Double.div_spec (a b : Double) (x y : ℚ) (ha : a.toRat? = some x)
    (hb : b.toRat? = some y) (hlo : (2 : ℚ) ^ (-1022 : Int) ≤ |x / y|)
    (hhi : |x / y| < 2 ^ (1023 : Int)) :
    ∃ z, (a / b).toRat? = some z ∧ |z - x / y| ≤ 2 ^ (-53 : Int) * |x / y| := by
  cases a with
  | nan s p => simp [Double.toRat?] at ha
  | inf s => simp [Double.toRat?] at ha
  | fin s m e =>
  cases b with
  | nan t q => simp [Double.toRat?] at hb
  | inf t => simp [Double.toRat?] at hb
  | fin t n f =>
  simp only [Double.toRat?, Option.some.injEq] at ha hb
  have h2' : (2 : ℚ) ≠ 0 := by norm_num
  have hpos : (0 : ℚ) < |x / y| := lt_of_lt_of_le (zpow_pos (by norm_num) _) hlo
  have hn : 0 < n := by
    rcases Nat.eq_zero_or_pos n with h0 | h0
    · subst h0
      rw [← hb] at hpos
      simp [Double.signed] at hpos
    · exact h0
  have hm : 0 < m := by
    rcases Nat.eq_zero_or_pos m with h0 | h0
    · subst h0
      rw [← ha] at hpos
      simp [Double.signed] at hpos
    · exact h0
  have hnq : (n : ℚ) ≠ 0 := by positivity
  have hsn : ((Double.signed t n : Int) : ℚ) ≠ 0 := by
    cases t <;> simp [Double.signed, hnq]
  have hst : ((Double.signed s m : Int) : ℚ) / (Double.signed t n : Int)
      = ((Double.signed (xor s t) m : Int) : ℚ) / n := by
    cases s <;> cases t <;> simp [Double.signed, neg_div, div_neg]
  have hxy : x / y = ((Double.signed (xor s t) m : Int) : ℚ) * ((1 : ℚ) / n * 2 ^ (e - f)) := by
    rw [← ha, ← hb, zpow_sub₀ h2', mul_div_mul_comm, hst]
    ring
  have habs : |x / y| = (m : ℚ) / n * 2 ^ (e - f) := by
    rw [hxy, abs_mul, Double.abs_signed,
      abs_of_pos (mul_pos (by positivity) (zpow_pos (by norm_num) _))]
    ring
  rw [habs] at hlo hhi
  obtain ⟨m', q', hr, herr⟩ := roundNE_spec (xor s t) m n (e - f) hm hn hlo hhi
  refine ⟨((Double.signed (xor s t) m' : Int) : ℚ) * 2 ^ q', ?_, ?_⟩
  · show (Double.div (.fin s m e) (.fin t n f)).toRat? = _
    simp only [Double.div, if_neg (Nat.pos_iff_ne_zero.1 hn), hr, Double.toRat?]
  · rw [habs, hxy, Double.signed_sub (xor s t) _ _ m' m _ _ rfl rfl]
    have e1 : (m : ℚ) * ((1 : ℚ) / n * 2 ^ (e - f)) = (m : ℚ) / n * 2 ^ (e - f) := by ring
    rw [e1]
    exact herr

/-- Zero divided by a finite non-zero datum is zero. -/
theorem Double.zero_div_spec (a b : Double) (y : ℚ) (ha : a.toRat? = some 0)
    (hb : b.toRat? = some y) (hy : y ≠ 0) : (a / b).toRat? = some 0 := by
  cases a with
  | nan s p => simp [Double.toRat?] at ha
  | inf s => simp [Double.toRat?] at ha
  | fin s m e =>
  cases b with
  | nan t q => simp [Double.toRat?] at hb
  | inf t => simp [Double.toRat?] at hb
  | fin t n f =>
  simp only [Double.toRat?, Option.some.injEq] at ha hb
  have hm : m = 0 := by
    rcases mul_eq_zero.1 ha with h | h
    · cases s <;> simpa [Double.signed] using h
    · exact absurd h (zpow_ne_zero _ (by norm_num))
  have hn : n ≠ 0 := by
    rintro rfl
    apply hy
    rw [← hb]
    cases t <;> simp [Double.signed]
  subst hm
  show (Double.div (.fin s 0 e) (.fin t n f)).toRat? = _
  simp [Double.div, hn, roundNE, Double.toRat?, Double.signed]

/-- From an absolute error bound to a relative perturbation. -/
theorem rel_of_abs (z w u : ℚ) (hu : 0 ≤ u) (h : |z - w| ≤ u * |w|) :
    ∃ δ : ℚ, |δ| ≤ u ∧ z = w * (1 + δ) := by
  rcases eq_or_ne w 0 with rfl | hw
  · refine ⟨0, by simpa using hu, ?_⟩
    simp at h
    simp [h]
  · refine ⟨(z - w) / w, ?_, by field_simp⟩
    rw [abs_div, div_le_iff₀ (abs_pos.2 hw)]
    exact h

/-- A value within relative error `2^-53` of `w` has magnitude within a factor two
of the magnitude of `w`. -/
theorem abs_bounds_of_err (z w lo hi : ℚ) (h : |z - w| ≤ 2 ^ (-53 : Int) * |w|)
    (h1 : lo ≤ |w|) (h2 : |w| ≤ hi) : lo / 2 ≤ |z| ∧ |z| ≤ 2 * hi := by
  have hw := abs_nonneg w
  have hu : (2 : ℚ) ^ (-53 : Int) ≤ 1 / 2 := by norm_num
  have hle : |z - w| ≤ 1 / 2 * |w| := le_trans h (mul_le_mul_of_nonneg_right hu hw)
  have t1 : |w| - |z| ≤ |z - w| := by
    rw [abs_sub_comm]; exact abs_sub_abs_le_abs_sub w z
  have t2 : |z| - |w| ≤ |z - w| := abs_sub_abs_le_abs_sub z w
  constructor <;> linarith

/-- The interval `[1e-300, 1e300]` lies in the normal range. -/
theorem in_range (t lo hi : ℚ) (hlo : 1e-300 ≤ lo) (hhi : hi ≤ 1e300) (h1 : lo ≤ t)
    (h2 : t ≤ hi) : (2 : ℚ) ^ (-1022 : Int) ≤ t ∧ t < 2 ^ (1023 : Int) := by
  have a1 : (2 : ℚ) ^ (-1022 : Int) ≤ 1e-300 := by norm_num
  have a2 : (1e300 : ℚ) < 2 ^ (1023 : Int) := by norm_num
  exact ⟨le_trans a1 (le_trans hlo h1), lt_of_le_of_lt (le_trans h2 hhi) a2⟩

/-- One multiplication of the error analysis: the result as a perturbed exact
product, with bounds on its magnitude. -/
theorem Double.mul_step (a b : Double) (x y lo hi : ℚ) (ha : a.toRat? = some x)
    (hb : b.toRat? = some y) (hlo : 1e-300 ≤ lo) (hhi : hi ≤ 1e300)
    (h1 : lo ≤ |x * y|) (h2 : |x * y| ≤ hi) :
    ∃ z δ : ℚ, (a * b).toRat? = some z ∧ |δ| ≤ 2 ^ (-53 : Int) ∧ z = x * y * (1 + δ)
      ∧ lo / 2 ≤ |z| ∧ |z| ≤ 2 * hi := by
  obtain ⟨r1, r2⟩ := in_range _ lo hi hlo hhi h1 h2
  obtain ⟨z, hz, herr⟩ := Double.mul_spec a b x y ha hb r1 r2
  obtain ⟨δ, hδ, e⟩ := rel_of_abs z (x * y) _ (by norm_num) herr
  obtain ⟨b1, b2⟩ := abs_bounds_of_err z (x * y) lo hi herr h1 h2
  exact ⟨z, δ, hz, hδ, e, b1, b2⟩

/-- One division of the error analysis: the result as a perturbed exact
quotient, with bounds on its magnitude. -/
theorem Double.div_step (a b : Double) (x y lo hi : ℚ) (ha : a.toRat? = some x)
    (hb : b.toRat? = some y) (hlo : 1e-300 ≤ lo) (hhi : hi ≤ 1e300)
    (h1 : lo ≤ |x / y|) (h2 : |x / y| ≤ hi) :
    ∃ z δ : ℚ, (a / b).toRat? = some z ∧ |δ| ≤ 2 ^ (-53 : Int) ∧ z = x / y * (1 + δ)
      ∧ lo / 2 ≤ |z| ∧ |z| ≤ 2 * hi := by
  obtain ⟨r1, r2⟩ := in_range _ lo hi hlo hhi h1 h2
  obtain ⟨z, hz, herr⟩ := Double.div_spec a b x y ha hb r1 r2
  obtain ⟨δ, hδ, e⟩ := rel_of_abs z (x / y) _ (by norm_num) herr
  obtain ⟨b1, b2⟩ := abs_bounds_of_err z (x / y) lo hi herr h1 h2
  exact ⟨z, δ, hz, hδ, e, b1, b2⟩

/-- Bounds on the magnitude of a product. -/
theorem abs_mul_bounds (x y l1 u1 l2 u2 : ℚ) (hl1 : 0 ≤ l1) (hl2 : 0 ≤ l2)
    (hx1 : l1 ≤ |x|) (hx2 : |x| ≤ u1) (hy1 : l2 ≤ |y|) (hy2 : |y| ≤ u2) :
    l1 * l2 ≤ |x * y| ∧ |x * y| ≤ u1 * u2 := by
  rw [abs_mul]
  exact ⟨mul_le_mul hx1 hy1 hl2 (le_trans hl1 hx1),
    mul_le_mul hx2 hy2 (abs_nonneg y) (le_trans (abs_nonneg x) hx2)⟩

/-- Bounds on the magnitude of a quotient. -/
theorem abs_div_bounds (x y l1 u1 l2 u2 : ℚ) (hl1 : 0 ≤ l1) (hl2 : 0 < l2)
    (hx1 : l1 ≤ |x|) (hx2 : |x| ≤ u1) (hy1 : l2 ≤ |y|) (hy2 : |y| ≤ u2) :
    l1 / u2 ≤ |x / y| ∧ |x / y| ≤ u1 / l2 := by
  rw [abs_div]
  have hy : 0 < |y| := lt_of_lt_of_le hl2 hy1
  exact ⟨div_le_div₀ (le_trans hl1 hx1) hx1 hy hy2,
    div_le_div₀ (le_trans (abs_nonneg x) hx2) hx2 hl2 hy1⟩

/-- A perturbed factor next to a quantity near one. -/
theorem pert_mul (X a p : ℝ) (hX : |X - 1| ≤ p) (ha : |a| ≤ 1e-15) (hp : p ≤ 1) :
    |X * (1 + a) - 1| ≤ p + 2e-15 := by
  have hXle : |X| ≤ 2 := by
    have := abs_sub_abs_le_abs_sub X 1
    simp only [abs_one] at this
    linarith
  have h1 : |X * a| ≤ 2 * 1e-15 := by
    rw [abs_mul]
    exact mul_le_mul hXle ha (abs_nonneg a) (by norm_num)
  have e : X * (1 + a) - 1 = (X - 1) + X * a := by ring
  rw [e]
  calc |X - 1 + X * a| ≤ |X - 1| + |X * a| := abs_add _ _
    _ ≤ p + 2e-15 := by linarith

/-- A quotient of two quantities near one is near one. -/
theorem near_one_div (N P : ℝ) (hN : |N - 1| ≤ 1e-14) (hP : |P - 1| ≤ 1e-14) :
    |N / P - 1| ≤ 1e-9 := by
  obtain ⟨n1, n2⟩ := abs_le.1 hN
  obtain ⟨p1, p2⟩ := abs_le.1 hP
  have hPpos : 0 < P := by norm_num at p1; linarith
  rw [abs_le]
  constructor
  · rw [le_sub_iff_add_le, le_div_iff₀ hPpos]
    norm_num at n1 n2 p1 p2 ⊢
    nlinarith
  · rw [sub_le_iff_le_add, div_le_iff₀ hPpos]
    norm_num at n1 n2 p1 p2 ⊢
    nlinarith

/-! ### The two formulas against real arithmetic -/

/-- The `double` `4 * M_PI`. -/
theorem four_pi_datum : (4 * M_PI : Double) = .fin false 7074237752028440 (-49) := by decide

/-- The `double` `2 * M_PI`. -/
theorem two_pi_datum : (2 * M_PI : Double) = .fin false 7074237752028440 (-50) := by decide

/-- The `double` `EPSILON_0`. -/
theorem epsilon_0_datum : EPSILON_0 = .fin false 5480476807008558 (-89) := by decide

/-- The `double` `MU_0`. -/
theorem mu_0_datum : MU_0 = .fin false 5934300740056779 (-72) := by decide

/-- The unit roundoff `2^-53` is below `1e-15`. -/
theorem ulp_le : (2 : ℚ) ^ (-53 : Int) ≤ 1e-15 := by norm_num

/-- A perturbation bounded by the unit roundoff, as a real number. -/
theorem cast_abs_le (δ : ℚ) (h : |δ| ≤ 2 ^ (-53 : Int)) : |(δ : ℝ)| ≤ 1e-15 := by
  have h1 : |δ| ≤ (1e-15 : ℚ) := le_trans h ulp_le
  have h2 : ((|δ| : ℚ) : ℝ) ≤ ((1e-15 : ℚ) : ℝ) := by exact_mod_cast h1
  rw [Rat.cast_abs] at h2
  refine le_trans h2 ?_
  norm_num

/-- The `double` `4 * M_PI` against `4π`. -/
theorem four_pi_rel :
    |(7074237752028440 / 562949953421312 : ℝ) / (4 * Real.pi) - 1| ≤ 1e-15 := by
  have h1 := Real.pi_gt_d20
  have h2 := Real.pi_lt_d20
  have hpos : (0 : ℝ) < 4 * Real.pi := by positivity
  rw [abs_le]
  constructor
  · rw [le_sub_iff_add_le, le_div_iff₀ hpos]
    norm_num at h1 h2 ⊢
    linarith
  · rw [sub_le_iff_le_add, div_le_iff₀ hpos]
    norm_num at h1 h2 ⊢
    linarith

/-- The `double` `EPSILON_0` against `8.854187817e-12`. -/
theorem epsilon_0_rel :
    |(5480476807008558 / 618970019642690137449562112 : ℝ) / 8.854187817e-12 - 1| ≤ 1e-15 := by
  rw [abs_le]
  constructor <;> norm_num

/-- The perturbed evaluation of the electric formula against its value in real
arithmetic. -/
theorem electric_real_core (qv rv δ1 δ2 δ3 δ4 v : ℚ) (hrv : rv ≠ 0)
    (h1 : |δ1| ≤ 2 ^ (-53 : Int)) (h2 : |δ2| ≤ 2 ^ (-53 : Int))
    (h3 : |δ3| ≤ 2 ^ (-53 : Int)) (h4 : |δ4| ≤ 2 ^ (-53 : Int))
    (hv : v = qv / ((7074237752028440 / 562949953421312) * rv * (1 + δ1) * rv * (1 + δ2)
      * (5480476807008558 / 618970019642690137449562112) * (1 + δ3)) * (1 + δ4)) :
    |(v : ℝ) - qv / (4 * Real.pi * rv ^ 2 * 8.854187817e-12)|
      ≤ 1e-9 * |(qv : ℝ) / (4 * Real.pi * rv ^ 2 * 8.854187817e-12)| := by
  have c1 := cast_abs_le δ1 h1
  have c2 := cast_abs_le δ2 h2
  have c3 := cast_abs_le δ3 h3
  have c4 := cast_abs_le δ4 h4
  have hrv' : (rv : ℝ) ≠ 0 := by exact_mod_cast hrv
  have hpi : Real.pi ≠ 0 := Real.pi_ne_zero
  set α : ℝ := (7074237752028440 / 562949953421312 : ℝ) / (4 * Real.pi) - 1 with hα
  set β : ℝ := (5480476807008558 / 618970019642690137449562112 : ℝ) / 8.854187817e-12 - 1
    with hβ
  have hα1 : |α| ≤ 1e-15 := four_pi_rel
  have hβ1 : |β| ≤ 1e-15 := epsilon_0_rel
  have eA : (7074237752028440 / 562949953421312 : ℝ) = 4 * Real.pi * (1 + α) := by
    rw [hα]; field_simp; ring
  have eE : (5480476807008558 / 618970019642690137449562112 : ℝ)
      = 8.854187817e-12 * (1 + β) := by
    rw [hβ]; field_simp; ring
  set T : ℝ := (qv : ℝ) / (4 * Real.pi * rv ^ 2 * 8.854187817e-12) with hT
  set P : ℝ := (1 + α) * (1 + δ1) * (1 + δ2) * (1 + β) * (1 + δ3) with hP
  have hP1 : |P - 1| ≤ 1e-14 := by
    have p0 : |(1 + α) - 1| ≤ 1e-15 := by simpa using hα1
    have p1 := pert_mul _ _ _ p0 c1 (by norm_num)
    have p2 := pert_mul _ _ _ p1 c2 (by norm_num)
    have p3 := pert_mul _ _ _ p2 hβ1 (by norm_num)
    have p4 := pert_mul _ _ _ p3 c3 (by norm_num)
    refine le_trans p4 ?_
    norm_num
  have hN1 : |(1 + (δ4 : ℝ)) - 1| ≤ 1e-14 := by
    have : |(1 + (δ4 : ℝ)) - 1| = |(δ4 : ℝ)| := by congr 1; ring
    rw [this]
    refine le_trans c4 ?_
    norm_num
  have hPpos : P ≠ 0 := by
    have := (abs_le.1 hP1).1
    norm_num at this
    intro h0
    rw [h0] at this
    linarith
  have hv' : (v : ℝ) = T * ((1 + δ4) / P) := by
    rw [hv]
    push_cast
    rw [eA, eE, hT, hP]
    rw [hP] at hPpos
    have f1 : (1 + α) ≠ 0 := by
      intro h; apply hPpos; rw [h]; ring
    have f2 : (1 + (δ1 : ℝ)) ≠ 0 := by
      intro h; apply hPpos; rw [h]; ring
    have f3 : (1 + (δ2 : ℝ)) ≠ 0 := by
      intro h; apply hPpos; rw [h]; ring
    have f4 : (1 + β) ≠ 0 := by
      intro h; apply hPpos; rw [h]; ring
    have f5 : (1 + (δ3 : ℝ)) ≠ 0 := by
      intro h; apply hPpos; rw [h]; ring
    field_simp
    left
    ring
  rw [hv']
  have := near_one_div _ _ hN1 hP1
  have e : T * ((1 + δ4) / P) - T = T * ((1 + δ4) / P - 1) := by ring
  rw [e, abs_mul, mul_comm]
  exact mul_le_mul_of_nonneg_right this (abs_nonneg T)

/-- The rational value of `4 * M_PI`. -/
theorem four_pi_toRat :
    (4 * M_PI : Double).toRat? = some (7074237752028440 / 562949953421312) := by
  rw [four_pi_datum]
  simp only [Double.toRat?, Double.signed, Option.some.injEq]
  norm_num

/-- The rational value of `EPSILON_0`. -/
theorem epsilon_0_toRat :
    EPSILON_0.toRat? = some (5480476807008558 / 618970019642690137449562112) := by
  rw [epsilon_0_datum]
  simp only [Double.toRat?, Double.signed, Option.some.injEq]
  norm_num

/-- Accuracy of `calculateElectricField`: for finite arguments with
`1e-60 ≤ |r| ≤ 1e60` and `Q = 0` or `1e-60 ≤ |Q| ≤ 1e60` the stored value is
finite and within relative error `1e-9` of `Q / (4 π r² · 8.854187817e-12)`. -/
theorem calculateElectricField_accuracy (e : ElectricField) (Q r : Double) (qv rv : ℚ)
    (hQ : Q.toRat? = some qv) (hr : r.toRat? = some rv)
    (hr1 : 1e-60 ≤ |rv|) (hr2 : |rv| ≤ 1e60)
    (hQ1 : qv = 0 ∨ (1e-60 ≤ |qv| ∧ |qv| ≤ 1e60)) :
    ∃ v : ℚ, (e.calculateElectricField Q r).calculatedField.toRat? = some v ∧
      |(v : ℝ) - qv / (4 * Real.pi * rv ^ 2 * 8.854187817e-12)|
        ≤ 1e-9 * |(qv : ℝ) / (4 * Real.pi * rv ^ 2 * 8.854187817e-12)| := by
  show ∃ v : ℚ, (Q / ((((4 * M_PI) * r) * r) * EPSILON_0)).toRat? = some v ∧ _
  have hrv : rv ≠ 0 := by
    intro h
    rw [h] at hr1
    norm_num at hr1
  -- `4 * M_PI * r`
  obtain ⟨a1, a2⟩ := abs_mul_bounds (7074237752028440 / 562949953421312) rv 12 13 1e-60 1e60
    (by norm_num) (by norm_num) (by rw [abs_of_pos] <;> norm_num)
    (by rw [abs_of_pos] <;> norm_num) hr1 hr2
  obtain ⟨z2, δ1, hz2, hδ1, e2, l2, u2⟩ := Double.mul_step _ _ _ _ _ _ four_pi_toRat hr
    (by norm_num) (by norm_num) a1 a2
  -- `4 * M_PI * r * r`
  obtain ⟨b1, b2⟩ := abs_mul_bounds z2 rv _ _ 1e-60 1e60 (by norm_num) (by norm_num)
    l2 u2 hr1 hr2
  obtain ⟨z3, δ2, hz3, hδ2, e3, l3, u3⟩ := Double.mul_step _ _ _ _ _ _ hz2 hr
    (by norm_num) (by norm_num) b1 b2
  -- `4 * M_PI * r * r * EPSILON_0`
  obtain ⟨c1, c2⟩ := abs_mul_bounds z3 (5480476807008558 / 618970019642690137449562112)
    _ _ 8e-12 9e-12 (by norm_num) (by norm_num) l3 u3
    (by rw [abs_of_pos] <;> norm_num) (by rw [abs_of_pos] <;> norm_num)
  obtain ⟨z4, δ3, hz4, hδ3, e4, l4, u4⟩ := Double.mul_step _ _ _ _ _ _ hz3 epsilon_0_toRat
    (by norm_num) (by norm_num) c1 c2
  have hz4ne : z4 ≠ 0 := by
    intro h
    rw [h] at l4
    norm_num at l4
  rcases hQ1 with hq0 | ⟨hq1, hq2⟩
  · subst hq0
    exact ⟨0, Double.zero_div_spec _ _ z4 hQ hz4 hz4ne, by simp⟩
  · obtain ⟨d1, d2⟩ := abs_div_bounds qv z4 1e-60 1e60 _ _ (by norm_num) (by norm_num)
      hq1 hq2 l4 u4
    obtain ⟨z5, δ4, hz5, hδ4, e5, -, -⟩ := Double.div_step _ _ _ _ _ _ hQ hz4
      (by norm_num) (by norm_num) d1 d2
    refine ⟨z5, hz5, ?_⟩
    apply electric_real_core qv rv δ1 δ2 δ3 δ4 z5 hrv hδ1 hδ2 hδ3 hδ4
    rw [e5, e4, e3, e2]

/-- A finite datum times zero is zero. -/
theorem Double.mul_zero_spec (a b : Double) (x : ℚ) (ha : a.toRat? = some x)
    (hb : b.toRat? = some 0) : (a * b).toRat? = some 0 := by
  cases a with
  | nan s p => simp [Double.toRat?] at ha
  | inf s => simp [Double.toRat?] at ha
  | fin s m e =>
  cases b with
  | nan t q => simp [Double.toRat?] at hb
  | inf t => simp [Double.toRat?] at hb
  | fin t n f =>
  simp only [Double.toRat?, Option.some.injEq] at hb
  have hn : n = 0 := by
    rcases mul_eq_zero.1 hb with h | h
    · cases t <;> simpa [Double.signed] using h
    · exact absurd h (zpow_ne_zero _ (by norm_num))
  subst hn
  show (Double.mul (.fin s m e) (.fin t 0 f)).toRat? = _
  simp [Double.mul, roundNE, Double.toRat?, Double.signed]

/-- The rational value of `2 * M_PI`. -/
theorem two_pi_toRat :
    (2 * M_PI : Double).toRat? = some (7074237752028440 / 1125899906842624) := by
  rw [two_pi_datum]
  simp only [Double.toRat?, Double.signed, Option.some.injEq]
  norm_num

/-- The rational value of `MU_0`. -/
theorem mu_0_toRat :
    MU_0.toRat? = some (5934300740056779 / 4722366482869645213696) := by
  rw [mu_0_datum]
  simp only [Double.toRat?, Double.signed, Option.some.injEq]
  norm_num

/-- The `double` `2 * M_PI` against `2π`. -/
theorem two_pi_rel :
    |(7074237752028440 / 1125899906842624 : ℝ) / (2 * Real.pi) - 1| ≤ 1e-15 := by
  have h1 := Real.pi_gt_d20
  have h2 := Real.pi_lt_d20
  have hpos : (0 : ℝ) < 2 * Real.pi := by positivity
  rw [abs_le]
  constructor
  · rw [le_sub_iff_add_le, le_div_iff₀ hpos]
    norm_num at h1 h2 ⊢
    linarith
  · rw [sub_le_iff_le_add, div_le_iff₀ hpos]
    norm_num at h1 h2 ⊢
    linarith

/-- The `double` `MU_0` against `4π × 10⁻⁷`. -/
theorem mu_0_rel :
    |(5934300740056779 / 4722366482869645213696 : ℝ) / (4 * Real.pi * 1e-7) - 1| ≤ 1e-15 := by
  have h1 := Real.pi_gt_d20
  have h2 := Real.pi_lt_d20
  have hpos : (0 : ℝ) < 4 * Real.pi * 1e-7 := by positivity
  rw [abs_le]
  constructor
  · rw [le_sub_iff_add_le, le_div_iff₀ hpos]
    norm_num at h1 h2 ⊢
    linarith
  · rw [sub_le_iff_le_add, div_le_iff₀ hpos]
    norm_num at h1 h2 ⊢
    linarith

/-- The perturbed evaluation of the magnetic formula against its value in real
arithmetic. -/
theorem magnetic_real_core (iv rv δ1 δ2 δ3 v : ℚ) (hrv : rv ≠ 0)
    (h1 : |δ1| ≤ 2 ^ (-53 : Int)) (h2 : |δ2| ≤ 2 ^ (-53 : Int))
    (h3 : |δ3| ≤ 2 ^ (-53 : Int))
    (hv : v = (5934300740056779 / 4722366482869645213696) * iv * (1 + δ1)
      / ((7074237752028440 / 1125899906842624) * rv * (1 + δ2)) * (1 + δ3)) :
    |(v : ℝ) - (4 * Real.pi * 1e-7 * iv) / (2 * Real.pi * rv)|
      ≤ 1e-9 * |(4 * Real.pi * 1e-7 * (iv : ℝ)) / (2 * Real.pi * rv)| := by
  have c1 := cast_abs_le δ1 h1
  have c2 := cast_abs_le δ2 h2
  have c3 := cast_abs_le δ3 h3
  have hrv' : (rv : ℝ) ≠ 0 := by exact_mod_cast hrv
  have hpi : Real.pi ≠ 0 := Real.pi_ne_zero
  set α : ℝ := (7074237752028440 / 1125899906842624 : ℝ) / (2 * Real.pi) - 1 with hα
  set μ : ℝ := (5934300740056779 / 4722366482869645213696 : ℝ) / (4 * Real.pi * 1e-7) - 1
    with hμ
  have hα1 : |α| ≤ 1e-15 := two_pi_rel
  have hμ1 : |μ| ≤ 1e-15 := mu_0_rel
  have eB : (7074237752028440 / 1125899906842624 : ℝ) = 2 * Real.pi * (1 + α) := by
    rw [hα]; field_simp; ring
  have eM : (5934300740056779 / 4722366482869645213696 : ℝ)
      = 4 * Real.pi * 1e-7 * (1 + μ) := by
    rw [hμ]; field_simp; ring
  set T : ℝ := (4 * Real.pi * 1e-7 * (iv : ℝ)) / (2 * Real.pi * rv) with hT
  set N : ℝ := (1 + μ) * (1 + δ1) * (1 + δ3) with hN
  set P : ℝ := (1 + α) * (1 + δ2) with hP
  have hN1 : |N - 1| ≤ 1e-14 := by
    have p0 : |(1 + μ) - 1| ≤ 1e-15 := by simpa using hμ1
    have p1 := pert_mul _ _ _ p0 c1 (by norm_num)
    have p2 := pert_mul _ _ _ p1 c3 (by norm_num)
    refine le_trans p2 ?_
    norm_num
  have hP1 : |P - 1| ≤ 1e-14 := by
    have p0 : |(1 + α) - 1| ≤ 1e-15 := by simpa using hα1
    have p1 := pert_mul _ _ _ p0 c2 (by norm_num)
    refine le_trans p1 ?_
    norm_num
  have hPpos : P ≠ 0 := by
    have := (abs_le.1 hP1).1
    norm_num at this
    intro h0
    rw [h0] at this
    linarith
  have hv' : (v : ℝ) = T * (N / P) := by
    rw [hv]
    push_cast
    rw [eB, eM, hT, hN, hP]
    rw [hP] at hPpos
    have f1 : (1 + α) ≠ 0 := by
      intro h; apply hPpos; rw [h]; ring
    have f2 : (1 + (δ2 : ℝ)) ≠ 0 := by
      intro h; apply hPpos; rw [h]; ring
    field_simp
    ring
  rw [hv']
  have := near_one_div _ _ hN1 hP1
  have e : T * (N / P) - T = T * (N / P - 1) := by ring
  rw [e, abs_mul, mul_comm]
  exact mul_le_mul_of_nonneg_right this (abs_nonneg T)

/-- Accuracy of `calculateMagneticField`: for finite arguments with
`1e-60 ≤ |r| ≤ 1e60` and `I = 0` or `1e-60 ≤ |I| ≤ 1e60` the stored value is
finite and within relative error `1e-9` of `(4π × 10⁻⁷ · I) / (2 π r)`. -/
theorem calculateMagneticField_accuracy (m : MagneticField) (I r : Double) (iv rv : ℚ)
    (hI : I.toRat? = some iv) (hr : r.toRat? = some rv)
    (hr1 : 1e-60 ≤ |rv|) (hr2 : |rv| ≤ 1e60)
    (hI1 : iv = 0 ∨ (1e-60 ≤ |iv| ∧ |iv| ≤ 1e60)) :
    ∃ v : ℚ, (m.calculateMagneticField I r).calculatedField.toRat? = some v ∧
      |(v : ℝ) - (4 * Real.pi * 1e-7 * iv) / (2 * Real.pi * rv)|
        ≤ 1e-9 * |(4 * Real.pi * 1e-7 * (iv : ℝ)) / (2 * Real.pi * rv)| := by
  show ∃ v : ℚ, ((MU_0 * I) / ((2 * M_PI) * r)).toRat? = some v ∧ _
  have hrv : rv ≠ 0 := by
    intro h
    rw [h] at hr1
    norm_num at hr1
  -- `2 * M_PI * r`
  obtain ⟨a1, a2⟩ := abs_mul_bounds (7074237752028440 / 1125899906842624) rv 6 7 1e-60 1e60
    (by norm_num) (by norm_num) (by rw [abs_of_pos] <;> norm_num)
    (by rw [abs_of_pos] <;> norm_num) hr1 hr2
  obtain ⟨z2, δ2, hz2, hδ2, e2, l2, u2⟩ := Double.mul_step _ _ _ _ _ _ two_pi_toRat hr
    (by norm_num) (by norm_num) a1 a2
  have hz2ne : z2 ≠ 0 := by
    intro h
    rw [h] at l2
    norm_num at l2
  rcases hI1 with hi0 | ⟨hi1, hi2⟩
  · subst hi0
    refine ⟨0, Double.zero_div_spec _ _ z2 (Double.mul_zero_spec _ _ _ mu_0_toRat hI) hz2 hz2ne,
      by simp⟩
  · -- `MU_0 * I`
    obtain ⟨b1, b2⟩ := abs_mul_bounds (5934300740056779 / 4722366482869645213696) iv
      1e-6 2e-6 1e-60 1e60 (by norm_num) (by norm_num) (by rw [abs_of_pos] <;> norm_num)
      (by rw [abs_of_pos] <;> norm_num) hi1 hi2
    obtain ⟨z1, δ1, hz1, hδ1, e1, l1, u1⟩ := Double.mul_step _ _ _ _ _ _ mu_0_toRat hI
      (by norm_num) (by norm_num) b1 b2
    obtain ⟨d1, d2⟩ := abs_div_bounds z1 z2 _ _ _ _ (by norm_num) (by norm_num) l1 u1 l2 u2
    obtain ⟨z3, δ3, hz3, hδ3, e3, -, -⟩ := Double.div_step _ _ _ _ _ _ hz1 hz2
      (by norm_num) (by norm_num) d1 d2
    refine ⟨z3, hz3, ?_⟩
    apply magnetic_real_core iv rv δ1 δ2 δ3 z3 hrv hδ1 hδ2 hδ3
    rw [e3, e2, e1]

/-! ## The calculation members -/

/-- C1, as stated, fails at arguments the member accepts.  At `Q = 0`,
`r = 1e-160` (`r != 0`, both finite) the denominator underflows to `0` and the
value stored is the NaN of `0 / 0`, where the formula gives `0`.  At
`Q = 1e-250`, `r = 1e-200` the value stored is an infinity.  At `Q = 1e-20`,
`r = 1e-155` the denominator is subnormal and the finite value stored is off the
number `Q / (4 π r² · 8.854187817e-12)` by more than `1e-6` of it. -/
theorem calculateElectricField_not_formula :
    (Double.eqIEEE 1e-160 0 = false
      ∧ (0 : Double).toRat? = some 0
      ∧ (∃ rv : ℚ, (1e-160 : Double).toRat? = some rv ∧ rv ≠ 0)
      ∧ ((ElectricField.ctor 0 1e5 1e3).calculateElectricField 0 1e-160).calculatedField
          = Double.defaultNaN
      ∧ ¬ ∃ v : ℚ,
          ((ElectricField.ctor 0 1e5 1e3).calculateElectricField 0
            1e-160).calculatedField.toRat? = some v)
      ∧ (Double.eqIEEE 1e-200 0 = false
        ∧ ((ElectricField.ctor 0 1e5 1e3).calculateElectricField 1e-250
            1e-200).calculatedField = Double.inf false)
      ∧ (Double.eqIEEE 1e-155 0 = false
        ∧ ∃ qv rv v : ℚ, (1e-20 : Double).toRat? = some qv
          ∧ (1e-155 : Double).toRat? = some rv
          ∧ ((ElectricField.ctor 0 1e5 1e3).calculateElectricField 1e-20
              1e-155).calculatedField.toRat? = some v
          ∧ 1e-6 * |(qv : ℝ) / (4 * Real.pi * rv ^ 2 * 8.854187817e-12)|
              < |(v : ℝ) - qv / (4 * Real.pi * rv ^ 2 * 8.854187817e-12)|) := by
  have hnan : ((ElectricField.ctor 0 1e5 1e3).calculateElectricField 0 1e-160).calculatedField
      = Double.defaultNaN := by decide
  refine ⟨⟨by decide, ?_, ?_, hnan, ?_⟩, ⟨by decide, by decide⟩, by decide, ?_⟩
  · show (Double.fin false 0 (-1074)).toRat? = some 0
    simp [Double.toRat?, Double.signed]
  · rw [show (1e-160 : Double) = .fin false 6331658277711476 (-584) by decide]
    refine ⟨_, rfl, ?_⟩
    simp only [Double.signed]
    positivity
  · rw [hnan]
    simp [Double.defaultNaN, Double.toRat?]
  · have hq : (1e-20 : Double) = .fin false 6646139978924579 (-119) := by decide
    have hr : (1e-155 : Double) = .fin false 4830671903771573 (-567) := by decide
    have hs : ((ElectricField.ctor 0 1e5 1e3).calculateElectricField 1e-20
        1e-155).calculatedField = .fin false 6044091774794644 944 := by decide
    refine ⟨((Double.signed false 6646139978924579 : Int) : ℚ) * 2 ^ (-119 : Int),
      ((Double.signed false 4830671903771573 : Int) : ℚ) * 2 ^ (-567 : Int),
      ((Double.signed false 6044091774794644 : Int) : ℚ) * 2 ^ (944 : Int),
      by rw [hq]; rfl, by rw [hr]; rfl, by rw [hs]; rfl, ?_⟩
    simp only [Double.signed]
    push_cast
    have h1 := Real.pi_gt_d20
    have hpos : (0 : ℝ) < 4 * Real.pi * (4830671903771573 * 2 ^ (-567 : Int)) ^ 2
        * 8.854187817e-12 := by positivity
    have hT0 : (0 : ℝ) < 6646139978924579 * 2 ^ (-119 : Int)
        / (4 * Real.pi * (4830671903771573 * 2 ^ (-567 : Int)) ^ 2 * 8.854187817e-12) := by
      positivity
    have hhi : (6646139978924579 * 2 ^ (-119 : Int) : ℝ)
        / (4 * Real.pi * (4830671903771573 * 2 ^ (-567 : Int)) ^ 2 * 8.854187817e-12)
        ≤ 6646139978924579 * 2 ^ (-119 : Int)
          / (4 * 3.14159265358979323846 * (4830671903771573 * 2 ^ (-567 : Int)) ^ 2
              * 8.854187817e-12) := by
      apply div_le_div_of_nonneg_left (by positivity) (by positivity)
      have : (0 : ℝ) < (4830671903771573 * 2 ^ (-567 : Int)) ^ 2 * 8.854187817e-12 := by
        positivity
      nlinarith
    have hv : (1 + 1e-6) * ((6646139978924579 * 2 ^ (-119 : Int) : ℝ)
        / (4 * 3.14159265358979323846 * (4830671903771573 * 2 ^ (-567 : Int)) ^ 2
            * 8.854187817e-12)) < 6044091774794644 * 2 ^ (944 : Int) := by
      norm_num
    generalize (6646139978924579 * 2 ^ (-119 : Int) : ℝ)
        / (4 * Real.pi * (4830671903771573 * 2 ^ (-567 : Int)) ^ 2 * 8.854187817e-12) = T
      at hT0 hhi ⊢
    generalize (6646139978924579 * 2 ^ (-119 : Int) : ℝ)
        / (4 * 3.14159265358979323846 * (4830671903771573 * 2 ^ (-567 : Int)) ^ 2
            * 8.854187817e-12) = U at hhi hv
    generalize (6044091774794644 * 2 ^ (944 : Int) : ℝ) = V at hv ⊢
    rw [abs_of_pos hT0, abs_of_pos (by nlinarith)]
    nlinarith

/-- C1, amended: for every finite charge `Q` with `Q = 0` or
`1e-60 ≤ |Q| ≤ 1e60`, every finite distance `r` with `1e-60 ≤ |r| ≤ 1e60` and
every electric field object, whatever its `calculatedField` held before, after
`calculateElectricField(Q, r)` the stored `calculatedField` is finite and equals
`Q / (4 π r² · EPSILON_0)` with `EPSILON_0 = 8.854187817e-12` to within relative
error `1e-9`. -/
theorem calculateElectricField_stores (f : Field) (c Q r : Double) (qv rv : ℚ)
    (hQ : Q.toRat? = some qv) (hr : r.toRat? = some rv)
    (hr1 : 1e-60 ≤ |rv|) (hr2 : |rv| ≤ 1e60)
    (hQ1 : qv = 0 ∨ (1e-60 ≤ |qv| ∧ |qv| ≤ 1e60)) :
    ∃ v : ℚ,
      (ElectricField.calculateElectricField ⟨f, c⟩ Q r).calculatedField.toRat? = some v
        ∧ |(v : ℝ) - qv / (4 * Real.pi * rv ^ 2 * 8.854187817e-12)|
          ≤ 1e-9 * |(qv : ℝ) / (4 * Real.pi * rv ^ 2 * 8.854187817e-12)| :=
  calculateElectricField_accuracy ⟨f, c⟩ Q r qv rv hQ hr hr1 hr2 hQ1

/-- C2, as stated, fails at arguments the member accepts.  At `I = r = 2^1023`
(`r != 0`, both finite) the product `2 * M_PI * r` overflows to an infinity and
the value stored is `0`, where `(4π × 10⁻⁷ · I) / (2 π r)` is `2e-7`. -/
theorem calculateMagneticField_not_formula :
    Double.eqIEEE (Double.fin false 4503599627370496 971) 0 = false
      ∧ (2 * M_PI * Double.fin false 4503599627370496 971 : Double) = Double.inf false
      ∧ ∃ x v : ℚ, (Double.fin false 4503599627370496 971).toRat? = some x
        ∧ ((MagneticField.ctor 1e-4 2e-4 3e-4).calculateMagneticField
            (Double.fin false 4503599627370496 971)
            (Double.fin false 4503599627370496 971)).calculatedField.toRat? = some v
        ∧ v = 0
        ∧ (4 * Real.pi * 1e-7 * (x : ℝ)) / (2 * Real.pi * x) = 2e-7 := by
  have hs : ((MagneticField.ctor 1e-4 2e-4 3e-4).calculateMagneticField
      (Double.fin false 4503599627370496 971)
      (Double.fin false 4503599627370496 971)).calculatedField
        = Double.fin false 0 (-1074) := by decide
  refine ⟨by decide, by decide,
    ((Double.signed false 4503599627370496 : Int) : ℚ) * 2 ^ (971 : Int),
    ((Double.signed false 0 : Int) : ℚ) * 2 ^ (-1074 : Int), rfl, by rw [hs]; rfl, ?_, ?_⟩
  · simp [Double.signed]
  · simp only [Double.signed]
    push_cast
    have hx : (4503599627370496 * 2 ^ (971 : Int) : ℝ) ≠ 0 := by positivity
    have hpi : Real.pi ≠ 0 := Real.pi_ne_zero
    rw [div_eq_iff (by positivity)]
    norm_num
    ring

/-- C2, amended: for every finite current `I` with `I = 0` or
`1e-60 ≤ |I| ≤ 1e60`, every finite distance `r` with `1e-60 ≤ |r| ≤ 1e60` and
every magnetic field object, whatever its `calculatedField` held before, after
`calculateMagneticField(I, r)` the stored `calculatedField` is finite and equals
`(MU_0 · I) / (2 π r)` with `MU_0 = 4π × 10⁻⁷` to within relative error `1e-9`. -/
theorem calculateMagneticField_stores (f : Field) (c I r : Double) (iv rv : ℚ)
    (hI : I.toRat? = some iv) (hr : r.toRat? = some rv)
    (hr1 : 1e-60 ≤ |rv|) (hr2 : |rv| ≤ 1e60)
    (hI1 : iv = 0 ∨ (1e-60 ≤ |iv| ∧ |iv| ≤ 1e60)) :
    ∃ v : ℚ,
      (MagneticField.calculateMagneticField ⟨f, c⟩ I r).calculatedField.toRat? = some v
        ∧ |(v : ℝ) - (4 * Real.pi * 1e-7 * iv) / (2 * Real.pi * rv)|
          ≤ 1e-9 * |(4 * Real.pi * 1e-7 * (iv : ℝ)) / (2 * Real.pi * rv)| :=
  calculateMagneticField_accuracy ⟨f, c⟩ I r iv rv hI hr hr1 hr2 hI1

/-- C5: `calculateElectricField` and `calculateMagneticField` leave the three
stored components as they were; the object after the call is the object before
it with `calculatedField` replaced. -/
theorem calculate_keeps_components (e : ElectricField) (m : MagneticField) (Q I r : Double) :
    (e.calculateElectricField Q r).toField = e.toField
      ∧ e.calculateElectricField Q r
          = { e with calculatedField := (e.calculateElectricField Q r).calculatedField }
      ∧ (m.calculateMagneticField I r).toField = m.toField
      ∧ m.calculateMagneticField I r
          = { m with calculatedField := (m.calculateMagneticField I r).calculatedField } :=
  ⟨rfl, rfl, rfl, rfl⟩

/-! ## Addition -/

/-- C3: the object returned by `a + b` has `calculatedField` equal to `0`,
whatever the operands hold, also after a calculation on either of them; for
both kinds of field. -/
theorem add_calculatedField_zero (a b : ElectricField) (c d : MagneticField) (Q I r : Double) :
    (a + b).calculatedField = 0.0
      ∧ (a.calculateElectricField Q r + b).calculatedField = 0.0
      ∧ (a + b.calculateElectricField Q r).calculatedField = 0.0
      ∧ (c + d).calculatedField = 0.0
      ∧ (c.calculateMagneticField I r + d).calculatedField = 0.0
      ∧ (c + d.calculateMagneticField I r).calculatedField = 0.0 :=
  ⟨rfl, rfl, rfl, rfl, rfl, rfl⟩

/-- C6, as stated, fails where a component sum is a NaN.  With first components
`+inf` and `-inf` the first components of `a + b` and `b + a` are NaNs, unequal
under `==`; with first components two NaNs of different sign, `a + b` and
`b + a` hold different NaNs, printed `nan` and `-nan`.  For both kinds. -/
theorem add_components_not_comm_at_nan :
    Double.eqIEEE
        (ElectricField.ctor (Double.inf false) 0 0 + ElectricField.ctor (Double.inf true) 0 0).value0
        (ElectricField.ctor (Double.inf true) 0 0 + ElectricField.ctor (Double.inf false) 0 0).value0
      = false
      ∧ (ElectricField.ctor (Double.nan false 2251799813685248) 0 0
          + ElectricField.ctor (Double.nan true 2251799813685249) 0 0).toField
        ≠ (ElectricField.ctor (Double.nan true 2251799813685249) 0 0
          + ElectricField.ctor (Double.nan false 2251799813685248) 0 0).toField
      ∧ defaultFormat (ElectricField.ctor (Double.nan false 2251799813685248) 0 0
          + ElectricField.ctor (Double.nan true 2251799813685249) 0 0).value0 = "nan"
      ∧ defaultFormat (ElectricField.ctor (Double.nan true 2251799813685249) 0 0
          + ElectricField.ctor (Double.nan false 2251799813685248) 0 0).value0 = "-nan"
      ∧ Double.eqIEEE
        (MagneticField.ctor (Double.inf false) 0 0 + MagneticField.ctor (Double.inf true) 0 0).value0
        (MagneticField.ctor (Double.inf true) 0 0 + MagneticField.ctor (Double.inf false) 0 0).value0
      = false
      ∧ (MagneticField.ctor (Double.nan false 2251799813685248) 0 0
          + MagneticField.ctor (Double.nan true 2251799813685249) 0 0).toField
        ≠ (MagneticField.ctor (Double.nan true 2251799813685249) 0 0
          + MagneticField.ctor (Double.nan false 2251799813685248) 0 0).toField := by
  refine ⟨by decide, by decide, by decide, by decide, by decide, by decide⟩

/-- C6, amended: for every pair of operands for which no component of `a + b` is
a NaN, the three components of `a + b` equal the three components of `b + a`,
as the same `double` and under `==`; for both kinds of field. -/
theorem add_components_comm (a b : ElectricField) (c d : MagneticField)
    (hab : (a + b).toField.hasNaN = false) (hcd : (c + d).toField.hasNaN = false) :
    (a + b).toField = (b + a).toField
      ∧ Double.eqIEEE (a + b).value0 (b + a).value0 = true
      ∧ Double.eqIEEE (a + b).value1 (b + a).value1 = true
      ∧ Double.eqIEEE (a + b).value2 (b + a).value2 = true
      ∧ (c + d).toField = (d + c).toField
      ∧ Double.eqIEEE (c + d).value0 (d + c).value0 = true
      ∧ Double.eqIEEE (c + d).value1 (d + c).value1 = true
      ∧ Double.eqIEEE (c + d).value2 (d + c).value2 = true := by
  change (Field.ctor (a.value0 + b.value0) (a.value1 + b.value1)
    (a.value2 + b.value2)).hasNaN = false at hab
  change (Field.ctor (c.value0 + d.value0) (c.value1 + d.value1)
    (c.value2 + d.value2)).hasNaN = false at hcd
  simp only [Field.hasNaN, Field.ctor, Bool.or_eq_false_iff] at hab hcd
  obtain ⟨⟨a0, a1⟩, a2⟩ := hab
  obtain ⟨⟨c0, c1⟩, c2⟩ := hcd
  have e0 := Double.add_comm_of_not_nan _ _ a0
  have e1 := Double.add_comm_of_not_nan _ _ a1
  have e2 := Double.add_comm_of_not_nan _ _ a2
  have g0 := Double.add_comm_of_not_nan _ _ c0
  have g1 := Double.add_comm_of_not_nan _ _ c1
  have g2 := Double.add_comm_of_not_nan _ _ c2
  refine ⟨?_, ?_, ?_, ?_, ?_, ?_, ?_, ?_⟩
  · show Field.ctor _ _ _ = Field.ctor _ _ _
    rw [e0, e1, e2]
  · show Double.eqIEEE (a.value0 + b.value0) (b.value0 + a.value0) = true
    rw [← e0]; exact Double.eqIEEE_self _ a0
  · show Double.eqIEEE (a.value1 + b.value1) (b.value1 + a.value1) = true
    rw [← e1]; exact Double.eqIEEE_self _ a1
  · show Double.eqIEEE (a.value2 + b.value2) (b.value2 + a.value2) = true
    rw [← e2]; exact Double.eqIEEE_self _ a2
  · show Field.ctor _ _ _ = Field.ctor _ _ _
    rw [g0, g1, g2]
  · show Double.eqIEEE (c.value0 + d.value0) (d.value0 + c.value0) = true
    rw [← g0]; exact Double.eqIEEE_self _ c0
  · show Double.eqIEEE (c.value1 + d.value1) (d.value1 + c.value1) = true
    rw [← g1]; exact Double.eqIEEE_self _ c1
  · show Double.eqIEEE (c.value2 + d.value2) (d.value2 + c.value2) = true
    rw [← g2]; exact Double.eqIEEE_self _ c2

/-- C4: `a + b` returns an object whose components are the sums of the operands'
components and leaves both operands as they were, for both kinds of field; in
`main`, `(0, 1e5, 1e3) + (1e4, 2e4, 3e4)` has components `(1e4, 1.2e5, 3.1e4)`. -/
theorem add_components (a b : ElectricField) (c d : MagneticField) (cout : ostream) :
    (a + b).toField = ⟨a.value0 + b.value0, a.value1 + b.value1, a.value2 + b.value2⟩
      ∧ (a.operatorPlus b).self = a ∧ (a.operatorPlus b).other = b
      ∧ (c + d).toField = ⟨c.value0 + d.value0, c.value1 + d.value1, c.value2 + d.value2⟩
      ∧ (c.operatorPlus d).self = c ∧ (c.operatorPlus d).other = d
      ∧ (main cout).e1.toField = ⟨0, 1e5, 1e3⟩
      ∧ (main cout).e2.toField = ⟨1e4, 2e4, 3e4⟩
      ∧ (main cout).e3 = (main cout).e1 + (main cout).e2
      ∧ (main cout).e3.toField = ⟨1e4, 1.2e5, 3.1e4⟩ := by
  refine ⟨rfl, rfl, rfl, rfl, rfl, rfl, rfl, rfl, rfl, ?_⟩
  show ((ElectricField.ctor 0 1e5 1e3).calculateElectricField 1e-6 0.05
      + ElectricField.ctor 1e4 2e4 3e4).toField = _
  decide

/-! ## The scenarios of `main` -/

/-- The value stored by `calculateMagneticField(10, 0.05)`, as a datum. -/
theorem magnetic_scenario_datum :
    ((MagneticField.ctor 1e-4 2e-4 3e-4).calculateMagneticField 10.0 0.05).calculatedField
      = Double.fin false 5902958103587057 (-67) := by
  decide

/-- C8: for the magnetic field constructed with components `(1e-4, 2e-4, 3e-4)`,
after `calculateMagneticField(10, 0.05)` the stored `calculatedField` is the
`double` `4e-5`, which is within relative error `1e-15` of the real number
`(4π × 10⁻⁷ × 10) / (2π × 0.05) = 4e-5`; it is the value `main` leaves in `m1`. -/
theorem magnetic_scenario_value (cout : ostream) :
    ((MagneticField.ctor 1e-4 2e-4 3e-4).calculateMagneticField 10.0 0.05).calculatedField
        = (4e-5 : Double)
      ∧ (4 * Real.pi * 1e-7 * 10) / (2 * Real.pi * 0.05) = (4e-5 : ℝ)
      ∧ (∃ q : ℚ,
          ((MagneticField.ctor 1e-4 2e-4 3e-4).calculateMagneticField 10.0
              0.05).calculatedField.toRat? = some q
            ∧ |(q : ℝ) - 4e-5| ≤ 1e-15 * 4e-5)
      ∧ (main cout).m1
          = (MagneticField.ctor 1e-4 2e-4 3e-4).calculateMagneticField 10.0 0.05 := by
  refine ⟨by decide, ?_, ?_, rfl⟩
  · rw [div_eq_iff (by positivity)]
    norm_num
    ring
  · rw [magnetic_scenario_datum]
    refine ⟨_, rfl, ?_⟩
    simp only [Double.signed]
    push_cast
    rw [abs_le]
    norm_num

/-- The value stored by `calculateElectricField(1e-6, 0.05)`, as a datum. -/
theorem electric_scenario_datum :
    ((ElectricField.ctor 0 1e5 1e3).calculateElectricField 1e-6 0.05).calculatedField
      = Double.fin false 7720248200111469 (-31) := by
  decide

/-- C7, as stated: the value stored by `calculateElectricField(1e-6, 0.05)` on
the field `(0, 1e5, 1e3)` does not lie in `[3594593.65, 3594593.75)`. -/
theorem electric_scenario_not_3594593 :
    ¬ ∃ q : ℚ,
      ((ElectricField.ctor 0 1e5 1e3).calculateElectricField 1e-6 0.05).calculatedField.toRat?
          = some q
        ∧ 3594593.65 ≤ q ∧ q < 3594593.75 := by
  rw [electric_scenario_datum]
  rintro ⟨q, hq, -, h2⟩
  simp only [Double.toRat?, Double.signed, Option.some.injEq] at hq
  subst hq
  norm_num at h2

/-- C7, amended: for the electric field constructed with components
`(0, 1e5, 1e3)`, after `calculateElectricField(1e-6, 0.05)` the stored
`calculatedField`, which is `1e-6 / (4 * M_PI * 0.05 * 0.05 * EPSILON_0)` in
`double` arithmetic and within relative error `1e-9` of the real number
`1e-6 / (4π · 0.0025 · 8.854187817e-12)`, is `3.5950207e6` to eight significant
digits: it lies in `[3595020.65, 3595020.75)`.  It is the value `main` leaves
in `e1`. -/
theorem electric_scenario_value (cout : ostream) :
    ((ElectricField.ctor 0 1e5 1e3).calculateElectricField 1e-6 0.05).calculatedField
        = (1e-6 : Double) / (4 * M_PI * 0.05 * 0.05 * EPSILON_0)
      ∧ (∃ q : ℚ,
          ((ElectricField.ctor 0 1e5 1e3).calculateElectricField 1e-6
              0.05).calculatedField.toRat? = some q
            ∧ 3595020.65 ≤ q ∧ q < 3595020.75
            ∧ |(q : ℝ) - 1e-6 / (4 * Real.pi * 0.0025 * 8.854187817e-12)|
                ≤ 1e-9 * (1e-6 / (4 * Real.pi * 0.0025 * 8.854187817e-12)))
      ∧ (main cout).e1 = (ElectricField.ctor 0 1e5 1e3).calculateElectricField 1e-6 0.05 := by
  refine ⟨rfl, ?_, rfl⟩
  rw [electric_scenario_datum]
  refine ⟨_, rfl, ?_, ?_, ?_⟩
  · simp only [Double.signed]; norm_num
  · simp only [Double.signed]; norm_num
  · have h1 := Real.pi_gt_d20
    have h2 := Real.pi_lt_d20
    have hpos : (0 : ℝ) < 4 * Real.pi * 0.0025 * 8.854187817e-12 := by positivity
    have hlo : (1e-6 : ℝ) / (4 * 3.14159265358979323847 * 0.0025 * 8.854187817e-12)
        ≤ 1e-6 / (4 * Real.pi * 0.0025 * 8.854187817e-12) :=
      div_le_div_of_nonneg_left (by norm_num) hpos (by linarith)
    have hhi : (1e-6 : ℝ) / (4 * Real.pi * 0.0025 * 8.854187817e-12)
        ≤ 1e-6 / (4 * 3.14159265358979323846 * 0.0025 * 8.854187817e-12) :=
      div_le_div_of_nonneg_left (by norm_num) (by norm_num) (by linarith)
    generalize (1e-6 : ℝ) / (4 * Real.pi * 0.0025 * 8.854187817e-12) = R at hlo hhi
    simp only [Double.signed]
    push_cast
    rw [abs_le]
    norm_num at hlo hhi ⊢
    constructor <;> linarith

/-! ## Printing -/

/-- C9: the text written by the derived `printMagnitude` is the text written by
`Field::printMagnitude` for the same components, which is the line
`Field components: (x, y, z)`, followed by the line
`Calculated Electric Field: <calculatedField> N/C`, respectively
`Calculated Magnetic Field: <calculatedField> T`. -/
theorem printMagnitude_text (cout : ostream) (f : Field) (e : ElectricField)
    (m : MagneticField) :
    (f.printMagnitude cout).text
        = cout.text ++ ("Field components: (" ++ cout.fmt f.value0 ++ ", "
            ++ cout.fmt f.value1 ++ ", " ++ cout.fmt f.value2 ++ ")\n")
      ∧ (e.printMagnitude cout).text
        = (e.toField.printMagnitude cout).text
            ++ ("Calculated Electric Field: " ++ cout.fmt e.calculatedField ++ " N/C\n")
      ∧ (m.printMagnitude cout).text
        = (m.toField.printMagnitude cout).text
            ++ ("Calculated Magnetic Field: " ++ cout.fmt m.calculatedField ++ " T\n") := by
  simp only [Field.printMagnitude, ElectricField.printMagnitude, MagneticField.printMagnitude,
    ostream.putStr, ostream.putDouble, String.append_assoc, and_self]

/-- C10: `operator<<` writes the three stored components only: two objects of a
kind with the same components and any `calculatedField` values give the same
stream, so the text written for an object is the same before and after a
calculation on it. -/
theorem insert_ignores_calculatedField (os : ostream) (f : Field) (c c' Q I r : Double) :
    (ElectricField.insert os ⟨f, c⟩).text
        = os.text ++ ("Electric Field components: (" ++ os.fmt f.value0 ++ ", "
            ++ os.fmt f.value1 ++ ", " ++ os.fmt f.value2 ++ ")")
      ∧ (MagneticField.insert os ⟨f, c⟩).text
        = os.text ++ ("Magnetic Field components: (" ++ os.fmt f.value0 ++ ", "
            ++ os.fmt f.value1 ++ ", " ++ os.fmt f.value2 ++ ")")
      ∧ ElectricField.insert os ⟨f, c⟩ = ElectricField.insert os ⟨f, c'⟩
      ∧ MagneticField.insert os ⟨f, c⟩ = MagneticField.insert os ⟨f, c'⟩
      ∧ ElectricField.insert os (ElectricField.calculateElectricField ⟨f, c⟩ Q r)
          = ElectricField.insert os ⟨f, c⟩
      ∧ MagneticField.insert os (MagneticField.calculateMagneticField ⟨f, c⟩ I r)
          = MagneticField.insert os ⟨f, c⟩ := by
  refine ⟨?_, ?_, rfl, rfl, rfl, rfl⟩ <;>
    simp only [ElectricField.insert, MagneticField.insert, ostream.putStr, ostream.putDouble,
      String.append_assoc]

/-! ## Instances of the conditional statements -/

/-- The rational value of the literal `1e-6`. -/
theorem lit_1em6_toRat :
    (1e-6 : Double).toRat? = some (4722366482869645 / 4722366482869645213696) := by
  rw [show (1e-6 : Double) = .fin false 4722366482869645 (-72) by decide]
  simp only [Double.toRat?, Double.signed, Option.some.injEq]
  norm_num

/-- The rational value of the literal `0.05`. -/
theorem lit_0p05_toRat :
    (0.05 : Double).toRat? = some (7205759403792794 / 144115188075855872) := by
  rw [show (0.05 : Double) = .fin false 7205759403792794 (-57) by decide]
  simp only [Double.toRat?, Double.signed, Option.some.injEq]
  norm_num

/-- The rational value of the literal `10.0`. -/
theorem lit_10_toRat : (10.0 : Double).toRat? = some 10 := by
  rw [show (10.0 : Double) = .fin false 5629499534213120 (-49) by decide]
  simp only [Double.toRat?, Double.signed, Option.some.injEq]
  norm_num

/-- C1 at the call of `main`: `Q = 1e-6`, `r = 0.05`, on the field `(0, 1e5, 1e3)`. -/
theorem calculateElectricField_stores_witness :
    ∃ v : ℚ,
      (ElectricField.calculateElectricField ⟨Field.ctor 0 1e5 1e3, 0.0⟩ 1e-6
          0.05).calculatedField.toRat? = some v
        ∧ |(v : ℝ) - ((4722366482869645 / 4722366482869645213696 : ℚ) : ℝ)
              / (4 * Real.pi * ((7205759403792794 / 144115188075855872 : ℚ) : ℝ) ^ 2
                  * 8.854187817e-12)|
          ≤ 1e-9 * |((4722366482869645 / 4722366482869645213696 : ℚ) : ℝ)
              / (4 * Real.pi * ((7205759403792794 / 144115188075855872 : ℚ) : ℝ) ^ 2
                  * 8.854187817e-12)| := by
  refine calculateElectricField_stores (Field.ctor 0 1e5 1e3) 0.0 1e-6 0.05 _ _
    lit_1em6_toRat lit_0p05_toRat ?_ ?_ (Or.inr ⟨?_, ?_⟩) <;>
    rw [abs_of_pos (by norm_num)] <;> norm_num

/-- C2 at the call of `main`: `I = 10`, `r = 0.05`, on the field `(1e-4, 2e-4, 3e-4)`. -/
theorem calculateMagneticField_stores_witness :
    ∃ v : ℚ,
      (MagneticField.calculateMagneticField ⟨Field.ctor 1e-4 2e-4 3e-4, 0.0⟩ 10.0
          0.05).calculatedField.toRat? = some v
        ∧ |(v : ℝ) - (4 * Real.pi * 1e-7 * ((10 : ℚ) : ℝ))
              / (2 * Real.pi * ((7205759403792794 / 144115188075855872 : ℚ) : ℝ))|
          ≤ 1e-9 * |(4 * Real.pi * 1e-7 * ((10 : ℚ) : ℝ))
              / (2 * Real.pi * ((7205759403792794 / 144115188075855872 : ℚ) : ℝ))| := by
  refine calculateMagneticField_stores (Field.ctor 1e-4 2e-4 3e-4) 0.0 10.0 0.05 _ _
    lit_10_toRat lit_0p05_toRat ?_ ?_ (Or.inr ⟨?_, ?_⟩) <;>
    rw [abs_of_pos (by norm_num)] <;> norm_num

/-- C6 at the operands of `main`: `e1 + e2` and `m1 + m2`. -/
theorem add_components_comm_witness :
    ((ElectricField.ctor 0 1e5 1e3).calculateElectricField 1e-6 0.05
        + ElectricField.ctor 1e4 2e4 3e4).toField.hasNaN = false
      ∧ ((MagneticField.ctor 1e-4 2e-4 3e-4).calculateMagneticField 10.0 0.05
        + MagneticField.ctor 2e-4 3e-4 1e-4).toField.hasNaN = false
      ∧ ((ElectricField.ctor 0 1e5 1e3).calculateElectricField 1e-6 0.05
          + ElectricField.ctor 1e4 2e4 3e4).toField
        = (ElectricField.ctor 1e4 2e4 3e4
          + (ElectricField.ctor 0 1e5 1e3).calculateElectricField 1e-6 0.05).toField
      ∧ ((MagneticField.ctor 1e-4 2e-4 3e-4).calculateMagneticField 10.0 0.05
          + MagneticField.ctor 2e-4 3e-4 1e-4).toField
        = (MagneticField.ctor 2e-4 3e-4 1e-4
          + (MagneticField.ctor 1e-4 2e-4 3e-4).calculateMagneticField 10.0 0.05).toField := by
  have h := add_components_comm
    ((ElectricField.ctor 0 1e5 1e3).calculateElectricField 1e-6 0.05)
    (ElectricField.ctor 1e4 2e4 3e4)
    ((MagneticField.ctor 1e-4 2e-4 3e-4).calculateMagneticField 10.0 0.05)
    (MagneticField.ctor 2e-4 3e-4 1e-4) (by decide) (by decide)
  exact ⟨by decide, by decide, h.1, h.2.2.2.2.1⟩

end Inheritance
